import Mathlib

/-!
# Verification of the peretran translation pipeline

A shallow embedding, in Lean 4, of the core components of the `peretran`
multi-service translation tool:

* the parallel provider orchestrator (`internal/orchestrator/orchestrator.go`):
  per-provider retry with validation, result aggregation, fallback;
* the memoization and checkpoint store (`internal/store`): exact and fuzzy
  cache lookup, invalidation and deletion, CSV batch checkpoints — the SQLite
  tables are modelled as in-memory lists of rows, each SQL statement as the
  corresponding pure state transformation;
* the boundary-aware chunker (`internal/chunker/chunker.go`);
* the target-language validator (`internal/validator`).

Modelling conventions:
* Go strings indexed by runes become Lean `String` / `List Char`
  (Lean's `String.length` counts code points, matching Go `len([]rune s)`).
  Byte offsets returned by the chunker's `findSplit` always fall on rune
  boundaries in the Go code, so they are modelled directly as rune indices.
* `float64` similarity arithmetic is modelled exactly over `ℚ`.
* Wall-clock timestamps (`time.Now()`), freshly generated row ids and the
  Unicode NFC normalizer (`golang.org/x/text/unicode/norm`) are external
  inputs, passed in as explicit parameters.
* Goroutine fan-out/fan-in in `Execute` delivers exactly one outcome per
  service; the completion order is modelled as configuration order, which is
  irrelevant for the counting and aggregation properties proved here.
-/

namespace Peretran

/-! ## Shared data model (`internal/translator/types.go`) -/

/-- Go `translator.ServiceConfig`: provider credentials and connection data.
Carried opaquely through the orchestrator. -/
structure ServiceConfig where
  credentials : String := ""
  apiKey : String := ""
  model : String := ""
  baseURL : String := ""
  timeoutMs : Nat := 0
  projectID : String := ""
deriving Repr, DecidableEq

/-- Go `translator.TranslateRequest`: the input to a translation service. -/
structure TranslateRequest where
  text : String := ""
  sourceLang : String := ""
  targetLang : String := ""
  previousContext : String := ""
  glossaryTerms : List (String × String) := []
  instructions : String := ""
deriving Repr, DecidableEq

/-- Go `translator.ServiceResult`: one provider's answer.  `error ≠ ""` means a
provider-reported failure carried inside an otherwise well-formed result. -/
structure ServiceResult where
  serviceName : String := ""
  translatedText : String := ""
  confidence : ℚ := 0
  metadata : List (String × String) := []
  latencyMs : Nat := 0
  error : String := ""
deriving Repr, DecidableEq

/-- Outcome of one `svc.Translate(ctx, cfg, req)` call: either a hard
transport/API error (Go `err ≠ nil`) or a `ServiceResult`. -/
inductive CallResult where
  | hardErr (msg : String)
  | res (r : ServiceResult)
deriving Repr, DecidableEq

/-- A translation service, modelled by its observable behaviour: the outcome
of its `Translate` call at each attempt index (mock services in the test
suite are exactly of this shape: behaviour as a function of the call count). -/
abbrev Service : Type := Nat → CallResult

/-- The validator collaborator consumed by the orchestrator:
`IsValid(translatedText, targetLang) → (bool, error)`. -/
abbrev ValidatorFun : Type := String → String → Bool × Option String

/-! ## Orchestrator (`internal/orchestrator/orchestrator.go`, first version) -/

/-- Go `orchestrator.OrchestratorConfig`.  `maxAttempts` is the Go `int` field;
values `< 1` (Go: any non-positive value) are replaced by the default in
`Orchestrator.new`. `retryDelayMs` models `RetryDelay` in milliseconds. -/
structure OrchestratorConfig where
  timeoutMs : Nat := 0
  minServices : Nat := 0
  maxAttempts : Nat := 0
  retryDelayMs : Nat := 0
  skipValidation : Bool := false
deriving Repr, DecidableEq

/-- Go `orchestrator.OrchestratorResult`: aggregated output of a run.
Errors are carried as their message strings. -/
structure OrchestratorResult where
  results : List ServiceResult
  errors : List String
  succeeded : Nat
  failed : Nat
deriving Repr, DecidableEq

/-- An `Orchestrator` as built by `New`: the service list, the config after
default substitution, and the optional validator. -/
structure Orchestrator where
  services : List Service
  config : OrchestratorConfig
  validator : Option ValidatorFun

/-- Go `orchestrator.New`: substitutes defaults (`MaxAttempts = 3`,
`RetryDelay = 500 ms`) and builds a validator unless `SkipValidation`.
The concrete validator instance is a parameter (`v`); Go constructs it from
the lingua-go detector. -/
def Orchestrator.new (services : List Service) (config : OrchestratorConfig)
    (v : ValidatorFun) : Orchestrator :=
  let config := { config with
    maxAttempts := if config.maxAttempts < 1 then 3 else config.maxAttempts
    retryDelayMs := if config.retryDelayMs ≤ 0 then 500 else config.retryDelayMs }
  { services := services
    config := config
    validator := if config.skipValidation then none else some v }

/-- The message recorded as `lastErr` for a failed attempt: a hard error's
message, or `"<service>: <error>"` for a result carrying an error string
(mirrors `fmt.Errorf("%s: %s", res.ServiceName, res.Error)`). -/
def CallResult.errMsg : CallResult → String
  | .hardErr m => m
  | .res r => r.serviceName ++ ": " ++ r.error

/-- An attempt outcome "produced a result": no hard error and no
provider-reported error string. -/
def CallResult.produced : CallResult → Prop
  | .hardErr _ => False
  | .res r => r.error = ""

instance : DecidablePred CallResult.produced := by
  intro c
  cases c with
  | hardErr m => exact isFalse (fun h => h)
  | res r => exact inferInstanceAs (Decidable (r.error = ""))

/-- State of one pass through `translateWithRetry`'s loop body, processing the
remaining attempt outcomes with the accumulated `lastResult` / `lastErr`.
Returns `(lastResult-or-returned-result, returned-error, number of Translate
calls consumed)`, mirroring the Go control flow exactly:

* hard error → record as `lastErr`, continue;
* result with a non-empty `Error` string → same, with the formatted message;
* produced result, no validator → return it;
* produced result, validation passes → return it;
* produced result, validation fails, attempts remain → record result and
  validation error, continue;
* produced result, validation fails on the final attempt → return the result
  anyway;
* attempts exhausted → return `lastResult` if one was recorded, else the last
  error. -/
def retryAux (validator : Option ValidatorFun) (targetLang : String) :
    List CallResult → Option ServiceResult → Option String →
    Option ServiceResult × Option String × Nat
  | [], lastRes, lastErr =>
    match lastRes, lastErr with
    | some r, _ => (some r, none, 0)
    | none, e => (none, e, 0)
  | c :: rest, lastRes, _lastErr =>
    match c with
    | .hardErr m =>
      let out := retryAux validator targetLang rest lastRes (some m)
      (out.1, out.2.1, out.2.2 + 1)
    | .res res =>
      if res.error ≠ "" then
        let out := retryAux validator targetLang rest lastRes
          (some (CallResult.errMsg (.res res)))
        (out.1, out.2.1, out.2.2 + 1)
      else
        match validator with
        | none => (some res, none, 1)
        | some valid =>
          if (valid res.translatedText targetLang).1 then (some res, none, 1)
          else
            match rest with
            | [] => (some res, none, 1)
            | c' :: rest' =>
              let out := retryAux validator targetLang (c' :: rest')
                (some res) (valid res.translatedText targetLang).2
              (out.1, out.2.1, out.2.2 + 1)

/-- Go `orchestrator.translateWithRetry`: run up to `maxAttempts` calls of the
service (exponential back-off waits do not affect the outcome and are not
modelled; context cancellation never fires in this model). -/
def translateWithRetry (validator : Option ValidatorFun) (maxAttempts : Nat)
    (req : TranslateRequest) (svc : Service) :
    Option ServiceResult × Option String × Nat :=
  retryAux validator req.targetLang ((List.range maxAttempts).map svc) none none

/-- Fan-in classification of one service's outcome in `Execute`: an error
appends to `errors`/`failed`; otherwise the (always present, see
`translateWithRetry_not_both_none`) result appends to `results`/`succeeded`. -/
def executeStep (v : Option ValidatorFun) (maxAttempts : Nat)
    (req : TranslateRequest) (acc : OrchestratorResult) (svc : Service) :
    OrchestratorResult :=
  let out := translateWithRetry v maxAttempts req svc
  match out.2.1 with
  | some e =>
    { acc with errors := acc.errors ++ [e], failed := acc.failed + 1 }
  | none =>
    { acc with
      results := acc.results ++ out.1.toList
      succeeded := acc.succeeded + 1 }

/-- Go `orchestrator.Execute`: one outcome per configured service, aggregated.
The fan-in channel's completion order is modelled as configuration order. -/
def Orchestrator.execute (o : Orchestrator) (_cfg : ServiceConfig)
    (req : TranslateRequest) : OrchestratorResult :=
  o.services.foldl (executeStep o.validator o.config.maxAttempts req)
    { results := [], errors := [], succeeded := 0, failed := 0 }

/-- Go `orchestrator.ExecuteWithFallback` (first version): first successful
result, or nothing when zero services succeeded. -/
def Orchestrator.executeWithFallback (o : Orchestrator) (cfg : ServiceConfig)
    (req : TranslateRequest) : Option ServiceResult :=
  let result := o.execute cfg req
  if result.succeeded = 0 then none
  else result.results[0]?

/-! ## Orchestrator, second concatenated version (no retry)

The repository's orchestrator source file carries a second, older version of
the package after the first.  Its `Execute` calls every service exactly once
and classifies the outcome directly; its `ExecuteWithFallback` returns the
first result only when *exactly one* service succeeded. -/

/-- Second version's outcome classification: hard error or result-carried
error string → failure, otherwise success. -/
def executeStepV2 (acc : OrchestratorResult) (svc : Service) :
    OrchestratorResult :=
  match svc 0 with
  | .hardErr m =>
    { acc with errors := acc.errors ++ [m], failed := acc.failed + 1 }
  | .res r =>
    if r.error ≠ "" then
      { acc with
        errors := acc.errors ++ [CallResult.errMsg (.res r)]
        failed := acc.failed + 1 }
    else
      { acc with
        results := acc.results ++ [r]
        succeeded := acc.succeeded + 1 }

/-- Second version's `Execute`: one `Translate` call per service. -/
def executeV2 (services : List Service) (_cfg : ServiceConfig)
    (_req : TranslateRequest) : OrchestratorResult :=
  services.foldl executeStepV2
    { results := [], errors := [], succeeded := 0, failed := 0 }

/-- Second version's `ExecuteWithFallback`: `nil` when zero succeeded, the
single result when exactly one succeeded, and `nil` again otherwise. -/
def executeWithFallbackV2 (services : List Service) (cfg : ServiceConfig)
    (req : TranslateRequest) : Option ServiceResult :=
  let result := executeV2 services cfg req
  if result.succeeded = 0 then none
  else if result.succeeded = 1 then result.results[0]?
  else none

/-! ## Orchestrator lemmas -/

/-- The error eventually reported when every attempt in `rest` fails: the
message of the last attempt of `rest`, or `fallback` when no attempts
remain (mirrors how `lastErr` is overwritten on every failed attempt). -/
def lastErrMsg : List CallResult → Option String → Option String
  | [], fallback => fallback
  | c :: rest, _ => lastErrMsg rest (some c.errMsg)

theorem lastErrMsg_nil (fallback : Option String) :
    lastErrMsg [] fallback = fallback := rfl

theorem lastErrMsg_cons (c : CallResult) (rest : List CallResult)
    (fallback : Option String) :
    lastErrMsg (c :: rest) fallback = lastErrMsg rest (some c.errMsg) := rfl

/-- On a non-empty failed attempt list the reported error is the last
attempt's message, independent of the fallback. -/
theorem lastErrMsg_ne_nil (rest : List CallResult) (h : rest ≠ [])
    (fallback fallback' : Option String) :
    lastErrMsg rest fallback = lastErrMsg rest fallback' ∧
      lastErrMsg rest fallback ≠ none := by
  induction rest generalizing fallback fallback' with
  | nil => exact absurd rfl h
  | cons c rest ih =>
    match rest with
    | [] => exact ⟨rfl, by simp [lastErrMsg]⟩
    | c' :: rest' =>
      rw [lastErrMsg_cons, lastErrMsg_cons c (c' :: rest') fallback']
      exact ih (by simp) _ _

/-- Step equation: a hard error records its message and retries. -/
theorem retryAux_hardErr (v : Option ValidatorFun) (tl m : String)
    (rest : List CallResult) (lastRes : Option ServiceResult)
    (lastErr : Option String) :
    retryAux v tl (CallResult.hardErr m :: rest) lastRes lastErr =
      ((retryAux v tl rest lastRes (some m)).1,
       (retryAux v tl rest lastRes (some m)).2.1,
       (retryAux v tl rest lastRes (some m)).2.2 + 1) := by
  rw [retryAux.eq_def]

/-- Step equation: a result carrying a provider-reported error string records
the formatted message and retries. -/
theorem retryAux_resErr (v : Option ValidatorFun) (tl : String)
    (res : ServiceResult) (herr : res.error ≠ "")
    (rest : List CallResult) (lastRes : Option ServiceResult)
    (lastErr : Option String) :
    retryAux v tl (CallResult.res res :: rest) lastRes lastErr =
      ((retryAux v tl rest lastRes (some (CallResult.errMsg (.res res)))).1,
       (retryAux v tl rest lastRes
         (some (CallResult.errMsg (.res res)))).2.1,
       (retryAux v tl rest lastRes
         (some (CallResult.errMsg (.res res)))).2.2 + 1) := by
  rw [retryAux.eq_def]
  simp [herr]

/-- Step equation: a produced result that fails validation with attempts
remaining is recorded and the loop retries. -/
theorem retryAux_invalid (valid : ValidatorFun) (tl : String)
    (res : ServiceResult) (herr : res.error = "")
    (hv : (valid res.translatedText tl).1 = false)
    (c' : CallResult) (rest' : List CallResult)
    (lastRes : Option ServiceResult) (lastErr : Option String) :
    retryAux (some valid) tl (CallResult.res res :: c' :: rest') lastRes
        lastErr =
      ((retryAux (some valid) tl (c' :: rest') (some res)
         (valid res.translatedText tl).2).1,
       (retryAux (some valid) tl (c' :: rest') (some res)
         (valid res.translatedText tl).2).2.1,
       (retryAux (some valid) tl (c' :: rest') (some res)
         (valid res.translatedText tl).2).2.2 + 1) := by
  rw [retryAux.eq_def]
  simp [herr, hv]

/-- If some remaining attempt produces a result, or a validation-failed result
was already recorded, `retryAux` returns a success: a produced result from the
remaining attempts, or the recorded one. -/
theorem retryAux_success (v : Option ValidatorFun) (tl : String) :
    ∀ (rest : List CallResult) (lastRes : Option ServiceResult)
      (lastErr : Option String),
      ((∃ c ∈ rest, c.produced) ∨ lastRes ≠ none) →
      ∃ r, (retryAux v tl rest lastRes lastErr).1 = some r ∧
        (retryAux v tl rest lastRes lastErr).2.1 = none ∧
        ((CallResult.res r ∈ rest ∧ r.error = "") ∨ lastRes = some r) := by
  intro rest
  induction rest with
  | nil =>
    intro lastRes lastErr h
    rcases h with h | h
    · obtain ⟨c, hc, _⟩ := h
      simp at hc
    · match lastRes with
      | some r => exact ⟨r, rfl, rfl, Or.inr rfl⟩
      | none => simp at h
  | cons c rest ih =>
    intro lastRes lastErr h
    match c with
    | .hardErr m =>
      have h' : (∃ c ∈ rest, c.produced) ∨ lastRes ≠ none := by
        rcases h with h | h
        · obtain ⟨c', hc', hp'⟩ := h
          rcases List.mem_cons.mp hc' with rfl | hc'
          · exact absurd hp' (by simp [CallResult.produced])
          · exact Or.inl ⟨c', hc', hp'⟩
        · exact Or.inr h
      obtain ⟨r, h1, h2, h3⟩ := ih lastRes (some m) h'
      rw [retryAux_hardErr]
      refine ⟨r, h1, h2, ?_⟩
      rcases h3 with ⟨hm, he⟩ | he
      · exact Or.inl ⟨List.mem_cons_of_mem _ hm, he⟩
      · exact Or.inr he
    | .res res =>
      by_cases herr : res.error = ""
      · match v with
        | none =>
          refine ⟨res, ?_, ?_, Or.inl ⟨List.mem_cons_self _ _, herr⟩⟩ <;>
            (rw [retryAux.eq_def]; simp [herr])
        | some valid =>
          by_cases hv : (valid res.translatedText tl).1
          · refine ⟨res, ?_, ?_, Or.inl ⟨List.mem_cons_self _ _, herr⟩⟩ <;>
              (rw [retryAux.eq_def]; simp [herr, hv])
          · match rest with
            | [] =>
              refine ⟨res, ?_, ?_, Or.inl ⟨List.mem_cons_self _ _, herr⟩⟩ <;>
                (rw [retryAux.eq_def]; simp [herr, hv])
            | c' :: rest' =>
              obtain ⟨r, h1, h2, h3⟩ :=
                ih (some res) (valid res.translatedText tl).2 (Or.inr (by simp))
              rw [retryAux_invalid valid tl res herr (by simpa using hv)]
              refine ⟨r, h1, h2, ?_⟩
              rcases h3 with ⟨hm, he⟩ | he
              · exact Or.inl ⟨List.mem_cons_of_mem _ hm, he⟩
              · obtain rfl : res = r := Option.some.inj he
                exact Or.inl ⟨List.mem_cons_self _ _, herr⟩
      · have h' : (∃ c ∈ rest, c.produced) ∨ lastRes ≠ none := by
          rcases h with h | h
          · obtain ⟨c', hc', hp'⟩ := h
            rcases List.mem_cons.mp hc' with rfl | hc'
            · exact absurd hp' (by simpa [CallResult.produced] using herr)
            · exact Or.inl ⟨c', hc', hp'⟩
          · exact Or.inr h
        obtain ⟨r, h1, h2, h3⟩ :=
          ih lastRes (some (CallResult.errMsg (.res res))) h'
        rw [retryAux_resErr v tl res herr]
        refine ⟨r, h1, h2, ?_⟩
        rcases h3 with ⟨hm, he⟩ | he
        · exact Or.inl ⟨List.mem_cons_of_mem _ hm, he⟩
        · exact Or.inr he

/-- If no remaining attempt produces a result and no validation-failed result
was recorded, `retryAux` fails with the last attempt's error message (or with
the incoming `lastErr` when no attempts remain). -/
theorem retryAux_failure (v : Option ValidatorFun) (tl : String) :
    ∀ (rest : List CallResult) (lastErr : Option String),
      (∀ c ∈ rest, ¬ c.produced) →
      (retryAux v tl rest none lastErr).1 = none ∧
      (retryAux v tl rest none lastErr).2.1 = lastErrMsg rest lastErr := by
  intro rest
  induction rest with
  | nil => intro lastErr _; exact ⟨rfl, rfl⟩
  | cons c rest ih =>
    intro lastErr h
    have hc : ¬ c.produced := h c (List.mem_cons_self _ _)
    have hrest : ∀ c' ∈ rest, ¬ c'.produced :=
      fun c' hm => h c' (List.mem_cons_of_mem _ hm)
    rw [lastErrMsg_cons]
    match c with
    | .hardErr m =>
      obtain ⟨h1, h2⟩ := ih (some m) hrest
      rw [retryAux_hardErr]
      exact ⟨h1, h2⟩
    | .res res =>
      have herr : ¬ res.error = "" := by simpa [CallResult.produced] using hc
      obtain ⟨h1, h2⟩ := ih (some (CallResult.errMsg (.res res))) hrest
      rw [retryAux_resErr v tl res herr]
      exact ⟨h1, h2⟩

/-- An attempt outcome is *accepted* when it produces a result and, if
validation is enabled, the result passes validation.  (A produced result that
fails validation on the final attempt is returned but not "accepted" in this
sense; the loop has simply run out of attempts.) -/
def accepted (v : Option ValidatorFun) (tl : String) : CallResult → Bool
  | .hardErr _ => false
  | .res r =>
    r.error = "" &&
      (match v with
       | none => true
       | some valid => (valid r.translatedText tl).1)

/-- The number of `Translate` calls consumed: the loop stops right after the
first accepted attempt, otherwise it consumes the whole attempt budget. -/
theorem retryAux_count (v : Option ValidatorFun) (tl : String) :
    ∀ (rest : List CallResult) (lastRes : Option ServiceResult)
      (lastErr : Option String),
      (retryAux v tl rest lastRes lastErr).2.2 =
        if rest.any (accepted v tl) then rest.findIdx (accepted v tl) + 1
        else rest.length := by
  intro rest
  induction rest with
  | nil =>
    intro lastRes lastErr
    simp only [List.any_nil, if_false, List.length_nil, Bool.false_eq_true]
    rw [retryAux.eq_def]
    cases lastRes <;> rfl
  | cons c rest ih =>
    intro lastRes lastErr
    match c with
    | .hardErr m =>
      have hacc : accepted v tl (.hardErr m) = false := rfl
      rw [retryAux_hardErr]
      simp only [List.any_cons, hacc, Bool.false_or, List.findIdx_cons,
        cond_false]
      rw [ih]
      by_cases h : rest.any (accepted v tl) <;> simp [h, List.length_cons]
    | .res res =>
      by_cases herr : res.error = ""
      · match v with
        | none =>
          have hacc : accepted none tl (.res res) = true := by
            simp [accepted, herr]
          rw [retryAux.eq_def]
          simp [herr, hacc, List.findIdx_cons]
        | some valid =>
          by_cases hv : (valid res.translatedText tl).1
          · have hacc : accepted (some valid) tl (.res res) = true := by
              simp [accepted, herr, hv]
            rw [retryAux.eq_def]
            simp [herr, hv, hacc, List.findIdx_cons]
          · have hacc : accepted (some valid) tl (.res res) = false := by
              simp [accepted, herr, hv]
            match rest with
            | [] =>
              rw [retryAux.eq_def]
              simp [herr, hv, hacc, List.findIdx_cons]
            | c' :: rest' =>
              rw [retryAux_invalid valid tl res herr (by simpa using hv)]
              rw [ih]
              by_cases hc' : accepted (some valid) tl c' = true
              · simp [List.any_cons, List.findIdx_cons, hacc, hc']
              · by_cases h2 : rest'.any (accepted (some valid) tl) = true
                · simp only [List.any_cons, List.findIdx_cons, hacc, hc', h2,
                    Bool.false_or, Bool.or_true, cond_false, if_true]
                · simp [List.any_cons, List.findIdx_cons, hacc, hc', h2]
      · have hacc : accepted v tl (.res res) = false := by
          simp [accepted, herr]
        rw [retryAux_resErr v tl res herr]
        simp only [List.any_cons, hacc, Bool.false_or, List.findIdx_cons,
          cond_false]
        rw [ih]
        by_cases h : rest.any (accepted v tl) <;> simp [h, List.length_cons]

/-- With at least one attempt available, `translateWithRetry` never returns
the impossible `(nil result, nil error)` pair. -/
theorem translateWithRetry_not_both_none (v : Option ValidatorFun)
    (maxAttempts : Nat) (hn : 1 ≤ maxAttempts) (req : TranslateRequest)
    (svc : Service) :
    (translateWithRetry v maxAttempts req svc).2.1 = none →
    ∃ r, (translateWithRetry v maxAttempts req svc).1 = some r := by
  intro hnone
  set attempts := (List.range maxAttempts).map svc with hatt
  have hne : attempts ≠ [] := by
    simp [hatt, List.map_eq_nil_iff, List.range_eq_nil]
    omega
  by_cases hp : ∃ c ∈ attempts, c.produced
  · obtain ⟨r, h1, _, _⟩ :=
      retryAux_success v req.targetLang attempts none none (Or.inl hp)
    exact ⟨r, h1⟩
  · push_neg at hp
    obtain ⟨_, h2⟩ := retryAux_failure v req.targetLang attempts none hp
    rw [translateWithRetry] at hnone
    rw [h2] at hnone
    exact absurd hnone (lastErrMsg_ne_nil attempts hne none none).2

/-- Fold invariant for `Execute`'s aggregation: each service contributes
exactly one outcome; the result and error lists track the two counters. -/
theorem executeStep_fold (v : Option ValidatorFun) (n : Nat) (hn : 1 ≤ n)
    (req : TranslateRequest) :
    ∀ (svcs : List Service) (acc : OrchestratorResult),
      acc.results.length = acc.succeeded → acc.errors.length = acc.failed →
      (svcs.foldl (executeStep v n req) acc).succeeded +
          (svcs.foldl (executeStep v n req) acc).failed =
        acc.succeeded + acc.failed + svcs.length ∧
      (svcs.foldl (executeStep v n req) acc).results.length =
        (svcs.foldl (executeStep v n req) acc).succeeded ∧
      (svcs.foldl (executeStep v n req) acc).errors.length =
        (svcs.foldl (executeStep v n req) acc).failed := by
  intro svcs
  induction svcs with
  | nil =>
    intro acc h1 h2
    simp only [List.foldl_nil, List.length_nil]
    exact ⟨by omega, h1, h2⟩
  | cons svc svcs ih =>
    intro acc h1 h2
    rw [List.foldl_cons]
    have hstep :
        (executeStep v n req acc svc).results.length =
            (executeStep v n req acc svc).succeeded ∧
          (executeStep v n req acc svc).errors.length =
            (executeStep v n req acc svc).failed ∧
          (executeStep v n req acc svc).succeeded +
              (executeStep v n req acc svc).failed =
            acc.succeeded + acc.failed + 1 := by
      rw [executeStep]
      cases hout : (translateWithRetry v n req svc).2.1 with
      | some e => simp [h1, h2] <;> omega
      | none =>
        obtain ⟨r, hr⟩ := translateWithRetry_not_both_none v n hn req svc hout
        simp [hr, h1, h2] <;> omega
    obtain ⟨hs1, hs2, hs3⟩ := hstep
    obtain ⟨g1, g2, g3⟩ := ih (executeStep v n req acc svc) hs1 hs2
    exact ⟨by rw [g1, List.length_cons]; omega, g2, g3⟩

/-- Fold invariant for the second version's aggregation. -/
theorem executeStepV2_fold :
    ∀ (svcs : List Service) (acc : OrchestratorResult),
      acc.results.length = acc.succeeded → acc.errors.length = acc.failed →
      (svcs.foldl executeStepV2 acc).succeeded +
          (svcs.foldl executeStepV2 acc).failed =
        acc.succeeded + acc.failed + svcs.length ∧
      (svcs.foldl executeStepV2 acc).results.length =
        (svcs.foldl executeStepV2 acc).succeeded ∧
      (svcs.foldl executeStepV2 acc).errors.length =
        (svcs.foldl executeStepV2 acc).failed := by
  intro svcs
  induction svcs with
  | nil =>
    intro acc h1 h2
    simp only [List.foldl_nil, List.length_nil]
    exact ⟨by omega, h1, h2⟩
  | cons svc svcs ih =>
    intro acc h1 h2
    rw [List.foldl_cons]
    have hstep :
        (executeStepV2 acc svc).results.length =
            (executeStepV2 acc svc).succeeded ∧
          (executeStepV2 acc svc).errors.length =
            (executeStepV2 acc svc).failed ∧
          (executeStepV2 acc svc).succeeded + (executeStepV2 acc svc).failed =
            acc.succeeded + acc.failed + 1 := by
      rw [executeStepV2]
      cases svc 0 with
      | hardErr m => simp [h1, h2] <;> omega
      | res r =>
        by_cases herr : r.error = "" <;> simp [herr, h1, h2] <;> omega
    obtain ⟨hs1, hs2, hs3⟩ := hstep
    obtain ⟨g1, g2, g3⟩ := ih (executeStepV2 acc svc) hs1 hs2
    exact ⟨by rw [g1, List.length_cons]; omega, g2, g3⟩

/-- An orchestrator built by `New` always has at least one attempt. -/
theorem new_maxAttempts_pos (services : List Service)
    (cfg : OrchestratorConfig) (v : ValidatorFun) :
    1 ≤ (Orchestrator.new services cfg v).config.maxAttempts := by
  rw [Orchestrator.new]
  by_cases h : cfg.maxAttempts < 1 <;> simp [h] <;> omega

theorem new_services (services : List Service) (cfg : OrchestratorConfig)
    (v : ValidatorFun) :
    (Orchestrator.new services cfg v).services = services := rfl

/-! ## Claim theorems: orchestrator -/

/-- C1 — Per-provider result propagation (raises-iff): for every provider
behaviour and request, `translateWithRetry` returns an error iff none of its
at-most-`maxAttempts` invocations ever produced a result (each ended in a
hard error or a result carrying a provider-reported error string); the
returned error is then the last attempt's error, and otherwise a produced
result is returned as a success — including a result that failed validation
on the final attempt. -/
theorem C1_translateWithRetry_raises_iff (v : Option ValidatorFun)
    (maxAttempts : Nat) (req : TranslateRequest) (svc : Service)
    (hn : 1 ≤ maxAttempts) :
    ((translateWithRetry v maxAttempts req svc).2.1 ≠ none ↔
      ∀ c ∈ (List.range maxAttempts).map svc, ¬ c.produced) ∧
    ((translateWithRetry v maxAttempts req svc).2.1 ≠ none →
      (translateWithRetry v maxAttempts req svc).1 = none ∧
      (translateWithRetry v maxAttempts req svc).2.1 =
        lastErrMsg ((List.range maxAttempts).map svc) none) ∧
    ((translateWithRetry v maxAttempts req svc).2.1 = none →
      ∃ r, (translateWithRetry v maxAttempts req svc).1 = some r ∧
        CallResult.res r ∈ (List.range maxAttempts).map svc ∧
        r.error = "") := by
  by_cases hp : ∃ c ∈ (List.range maxAttempts).map svc, c.produced
  · obtain ⟨r, h1, h2, h3⟩ := retryAux_success v req.targetLang
      ((List.range maxAttempts).map svc) none none (Or.inl hp)
    have herr : (translateWithRetry v maxAttempts req svc).2.1 = none := h2
    refine ⟨?_, ?_, ?_⟩
    · constructor
      · intro hne; exact absurd herr hne
      · intro hall
        obtain ⟨c, hc, hcp⟩ := hp
        exact absurd hcp (hall c hc)
    · intro hne; exact absurd herr hne
    · intro _
      rcases h3 with ⟨hm, he⟩ | he
      · exact ⟨r, h1, hm, he⟩
      · exact absurd he (by simp)
  · push_neg at hp
    obtain ⟨h1, h2⟩ :=
      retryAux_failure v req.targetLang ((List.range maxAttempts).map svc)
        none hp
    have hne : ((List.range maxAttempts).map svc) ≠ [] := by
      simp [List.map_eq_nil_iff, List.range_eq_nil]
      omega
    have herrne : (translateWithRetry v maxAttempts req svc).2.1 ≠ none := by
      rw [translateWithRetry, h2]
      exact (lastErrMsg_ne_nil _ hne none none).2
    refine ⟨⟨fun _ => hp, fun _ => herrne⟩, fun _ => ⟨h1, h2⟩, ?_⟩
    intro hnone; exact absurd hnone herrne

/-- Witness for C1: concrete run where attempts 1–2 fail hard and attempt 3
produces a result. -/
theorem C1_translateWithRetry_raises_iff_witness :
    (1 : Nat) ≤ 3 ∧
    ((translateWithRetry none 3 {}
        (fun k => if k < 2 then CallResult.hardErr "network down"
          else CallResult.res { serviceName := "svc", translatedText := "done" })).2.1 ≠ none ↔
      ∀ c ∈ (List.range 3).map
          (fun k => if k < 2 then CallResult.hardErr "network down"
            else CallResult.res { serviceName := "svc", translatedText := "done" }), ¬ c.produced) :=
  ⟨by decide,
   (C1_translateWithRetry_raises_iff none 3 {}
      (fun k => if k < 2 then CallResult.hardErr "network down"
        else CallResult.res { serviceName := "svc", translatedText := "done" }) (by decide)).1⟩

/-- C2 — Orchestration outcome invariant: exactly one outcome per
configured service, so `Succeeded + Failed` equals the number of services,
`Results` holds exactly `Succeeded` entries and `Errors` exactly `Failed`
entries; in particular three always-succeeding providers yield
`Succeeded = 3`, `Failed = 0` and three result entries. -/
theorem C2_execute_outcome_invariant (services : List Service)
    (cfg : OrchestratorConfig) (v : ValidatorFun) (scfg : ServiceConfig)
    (req : TranslateRequest) :
    (((Orchestrator.new services cfg v).execute scfg req).succeeded +
        ((Orchestrator.new services cfg v).execute scfg req).failed =
      services.length ∧
    ((Orchestrator.new services cfg v).execute scfg req).results.length =
      ((Orchestrator.new services cfg v).execute scfg req).succeeded ∧
    ((Orchestrator.new services cfg v).execute scfg req).errors.length =
      ((Orchestrator.new services cfg v).execute scfg req).failed) ∧
    (((Orchestrator.new
        [fun _ => CallResult.res { serviceName := "s1", translatedText := "t1" },
         fun _ => CallResult.res { serviceName := "s2", translatedText := "t2" },
         fun _ => CallResult.res { serviceName := "s3", translatedText := "t3" }]
        { skipValidation := true } (fun _ _ => (true, none))).execute {}
        {}).succeeded = 3 ∧
    ((Orchestrator.new
        [fun _ => CallResult.res { serviceName := "s1", translatedText := "t1" },
         fun _ => CallResult.res { serviceName := "s2", translatedText := "t2" },
         fun _ => CallResult.res { serviceName := "s3", translatedText := "t3" }]
        { skipValidation := true } (fun _ _ => (true, none))).execute {}
        {}).failed = 0 ∧
    ((Orchestrator.new
        [fun _ => CallResult.res { serviceName := "s1", translatedText := "t1" },
         fun _ => CallResult.res { serviceName := "s2", translatedText := "t2" },
         fun _ => CallResult.res { serviceName := "s3", translatedText := "t3" }]
        { skipValidation := true } (fun _ _ => (true, none))).execute {}
        {}).results.length = 3) := by
  constructor
  · have hn := new_maxAttempts_pos services cfg v
    have h := executeStep_fold
      ((Orchestrator.new services cfg v).validator)
      ((Orchestrator.new services cfg v).config.maxAttempts) hn req
      services { results := [], errors := [], succeeded := 0, failed := 0 }
      rfl rfl
    rw [Orchestrator.execute]
    rw [new_services] at *
    exact ⟨by have := h.1; simpa using this, h.2.1, h.2.2⟩
  · refine ⟨by rfl, by rfl, by rfl⟩

/-- C7 counterexample — the claim "`ExecuteWithFallback` returns the
first result whenever at least one provider succeeded, and nothing exactly
when zero succeeded" fails on the second concatenated version: with two
always-succeeding providers, two services succeed yet it returns nothing. -/
theorem C7_executeWithFallback_counterexample :
    (executeV2
        [fun _ => CallResult.res { serviceName := "a", translatedText := "x" },
         fun _ => CallResult.res { serviceName := "b", translatedText := "y" }]
        {} {}).succeeded = 2 ∧
    executeWithFallbackV2
        [fun _ => CallResult.res { serviceName := "a", translatedText := "x" },
         fun _ => CallResult.res { serviceName := "b", translatedText := "y" }]
        {} {} = none := by
  exact ⟨rfl, rfl⟩

/-- C7 (amended) — the primary `ExecuteWithFallback` returns the first
aggregated result when at least one provider succeeded and nothing exactly
when zero succeeded; the second concatenated version returns the single
result only when *exactly one* provider succeeded, and nothing both when
zero and when two or more succeeded. -/
theorem C7_executeWithFallback (services : List Service)
    (cfg : OrchestratorConfig) (v : ValidatorFun) (scfg : ServiceConfig)
    (req : TranslateRequest) :
    (((Orchestrator.new services cfg v).execute scfg req).succeeded = 0 →
      (Orchestrator.new services cfg v).executeWithFallback scfg req =
        none) ∧
    (((Orchestrator.new services cfg v).execute scfg req).succeeded ≠ 0 →
      ∃ r, (Orchestrator.new services cfg v).executeWithFallback scfg req =
          some r ∧
        ((Orchestrator.new services cfg v).execute scfg req).results.head? =
          some r) ∧
    ((executeV2 services scfg req).succeeded = 0 →
      executeWithFallbackV2 services scfg req = none) ∧
    ((executeV2 services scfg req).succeeded = 1 →
      ∃ r, executeWithFallbackV2 services scfg req = some r ∧
        (executeV2 services scfg req).results.head? = some r) ∧
    (2 ≤ (executeV2 services scfg req).succeeded →
      executeWithFallbackV2 services scfg req = none) := by
  have hn := new_maxAttempts_pos services cfg v
  have hlen := (executeStep_fold ((Orchestrator.new services cfg v).validator)
    ((Orchestrator.new services cfg v).config.maxAttempts) hn req services
    { results := [], errors := [], succeeded := 0, failed := 0 } rfl rfl).2.1
  have hexec : (Orchestrator.new services cfg v).execute scfg req =
      services.foldl (executeStep ((Orchestrator.new services cfg v).validator)
        ((Orchestrator.new services cfg v).config.maxAttempts) req)
      { results := [], errors := [], succeeded := 0, failed := 0 } := rfl
  have hlenV2 := (executeStepV2_fold services
    { results := [], errors := [], succeeded := 0, failed := 0 } rfl rfl).2.1
  have hexecV2 : executeV2 services scfg req =
      services.foldl executeStepV2
      { results := [], errors := [], succeeded := 0, failed := 0 } := rfl
  refine ⟨?_, ?_, ?_, ?_, ?_⟩
  · intro h0
    rw [Orchestrator.executeWithFallback]
    simp [h0]
  · intro hpos
    rw [Orchestrator.executeWithFallback]
    have hlen' : ((Orchestrator.new services cfg v).execute scfg
        req).results.length =
        ((Orchestrator.new services cfg v).execute scfg req).succeeded := by
      rw [hexec]; exact hlen
    have hlt : 0 < ((Orchestrator.new services cfg v).execute scfg
        req).results.length := by
      rw [hlen']; omega
    match hres : ((Orchestrator.new services cfg v).execute scfg
        req).results with
    | [] => rw [hres] at hlt; simp at hlt
    | r :: rs =>
      refine ⟨r, ?_, rfl⟩
      simp [hpos, hres]
  · intro h0
    rw [executeWithFallbackV2]
    simp [h0]
  · intro h1
    rw [executeWithFallbackV2]
    have hlen' : (executeV2 services scfg req).results.length =
        (executeV2 services scfg req).succeeded := by
      rw [hexecV2]; exact hlenV2
    have hlt : 0 < (executeV2 services scfg req).results.length := by
      rw [hlen', h1]; omega
    match hres : (executeV2 services scfg req).results with
    | [] => rw [hres] at hlt; simp at hlt
    | r :: rs =>
      refine ⟨r, ?_, rfl⟩
      simp [h1, hres]
  · intro h2
    rw [executeWithFallbackV2]
    have hne0 : (executeV2 services scfg req).succeeded ≠ 0 := by omega
    have hne1 : (executeV2 services scfg req).succeeded ≠ 1 := by omega
    simp [hne0, hne1]

/-- Witness for C7: one always-succeeding provider; the primary
`ExecuteWithFallback` returns its result. -/
theorem C7_executeWithFallback_witness :
    (((Orchestrator.new
        [fun _ => CallResult.res { serviceName := "mock", translatedText := "m" }]
        { skipValidation := true } (fun _ _ => (true, none))).execute {}
        {}).succeeded ≠ 0) ∧
    ∃ r, (Orchestrator.new
        [fun _ => CallResult.res { serviceName := "mock", translatedText := "m" }]
        { skipValidation := true }
        (fun _ _ => (true, none))).executeWithFallback {} {} = some r ∧
      ((Orchestrator.new
        [fun _ => CallResult.res { serviceName := "mock", translatedText := "m" }]
        { skipValidation := true } (fun _ _ => (true, none))).execute {}
        {}).results.head? = some r :=
  ⟨by decide,
   (C7_executeWithFallback
      [fun _ => CallResult.res { serviceName := "mock", translatedText := "m" }]
      { skipValidation := true } (fun _ _ => (true, none)) {} {}).2.1
      (by decide)⟩

/-- C8 — Retry attempt counting: `Translate` is invoked at most
`MaxAttempts` times (default 3 when unset), stopping at the first accepted
attempt; with a provider that reports transient errors on attempts 1–2 and
produces a valid result on attempt 3 under `MaxAttempts = 3`, `Translate` is
invoked exactly 3 times and the run reports 1 success. -/
theorem C8_retry_attempt_counting (services : List Service)
    (cfg : OrchestratorConfig) (v : ValidatorFun) (req : TranslateRequest)
    (svc : Service) :
    (cfg.maxAttempts < 1 →
      (Orchestrator.new services cfg v).config.maxAttempts = 3) ∧
    ((translateWithRetry (Orchestrator.new services cfg v).validator
        (Orchestrator.new services cfg v).config.maxAttempts req svc).2.2 ≤
      (Orchestrator.new services cfg v).config.maxAttempts) ∧
    ((translateWithRetry (Orchestrator.new services cfg v).validator
        (Orchestrator.new services cfg v).config.maxAttempts req svc).2.2 =
      if ((List.range (Orchestrator.new services cfg
            v).config.maxAttempts).map svc).any
          (accepted (Orchestrator.new services cfg v).validator
            req.targetLang) then
        ((List.range (Orchestrator.new services cfg v).config.maxAttempts).map
            svc).findIdx
          (accepted (Orchestrator.new services cfg v).validator
            req.targetLang) + 1
      else (Orchestrator.new services cfg v).config.maxAttempts) ∧
    ((translateWithRetry
        (Orchestrator.new
          [fun k => if k < 2 then
              CallResult.res { serviceName := "retryable", error := "temporary failure" }
            else
              CallResult.res { serviceName := "retryable", translatedText := "success on 3rd attempt" }]
          { maxAttempts := 3 } (fun _ _ => (true, none))).validator 3 req
        (fun k => if k < 2 then
            CallResult.res { serviceName := "retryable", error := "temporary failure" }
          else
            CallResult.res { serviceName := "retryable", translatedText := "success on 3rd attempt" })).2.2 = 3 ∧
    ((Orchestrator.new
        [fun k => if k < 2 then
            CallResult.res { serviceName := "retryable", error := "temporary failure" }
          else
            CallResult.res { serviceName := "retryable", translatedText := "success on 3rd attempt" }]
        { maxAttempts := 3 } (fun _ _ => (true, none))).execute {}
        {}).succeeded = 1) := by
  set n := (Orchestrator.new services cfg v).config.maxAttempts with hdefn
  set vv := (Orchestrator.new services cfg v).validator with hdefv
  have hcount := retryAux_count vv req.targetLang ((List.range n).map svc)
    none none
  refine ⟨?_, ?_, ?_, ?_, ?_⟩
  · intro h
    rw [hdefn, Orchestrator.new]
    simp [h]
  · rw [translateWithRetry, hcount]
    have hlen : ((List.range n).map svc).length = n := by simp
    by_cases h : ((List.range n).map svc).any (accepted vv req.targetLang)
    · rw [if_pos h]
      have hlt := List.findIdx_lt_length_of_exists
        (p := accepted vv req.targetLang) (List.any_eq_true.mp h)
      omega
    · rw [if_neg h]
      omega
  · rw [translateWithRetry, hcount]
    have hlen : ((List.range n).map svc).length = n := by simp
    rw [hlen]
  · rfl
  · rfl

/-- Witness for C8: concrete configuration with `MaxAttempts` unset, showing
the default of 3 attempts. -/
theorem C8_retry_attempt_counting_witness :
    ({} : OrchestratorConfig).maxAttempts < 1 ∧
    (Orchestrator.new [] {} (fun _ _ => (true, none))).config.maxAttempts =
      3 :=
  ⟨by decide,
   (C8_retry_attempt_counting [] {} (fun _ _ => (true, none)) {}
      (fun _ => CallResult.hardErr "unused")).1 (by decide)⟩

/-! ## Memoization & checkpoint store (`internal/store/store.go`)

The SQLite tables are modelled as in-memory lists of rows in insertion
order; each SQL statement becomes the corresponding pure transformation.
`INSERT OR REPLACE` on a unique key deletes any conflicting row and appends
the new one.  Freshly generated ids (`fmt.Sprintf("mem_%d", UnixNano)`),
current timestamps and the Unicode NFC normalizer are external inputs. -/

/-- A row of the `translation_memory` table. -/
structure MemoryEntry where
  id : String := ""
  sourceText : String := ""
  sourceLang : String := ""
  targetLang : String := ""
  finalText : String := ""
  draftText : String := ""
  serviceUsed : String := ""
  usageCount : Nat := 1
  invalidated : Bool := false
  lastUsed : Nat := 0
  createdAt : Nat := 0
deriving Repr, DecidableEq

/-- A row of the `csv_checkpoints` table (`status ∈ {running, completed}`). -/
structure CSVCheckpoint where
  id : String := ""
  inputFile : String := ""
  outputFile : String := ""
  sourceLang : String := ""
  targetLang : String := ""
  status : String := "running"
  createdAt : Nat := 0
  updatedAt : Nat := 0
deriving Repr, DecidableEq

/-- A row of the `csv_checkpoint_cells` table; primary key is
`(checkpoint_id, row_idx, col_idx)`. -/
structure CSVCell where
  checkpointId : String := ""
  rowIdx : Int := 0
  colIdx : Int := 0
  translatedText : String := ""
  createdAt : Nat := 0
deriving Repr, DecidableEq

/-- The store's persisted state: the tables the verified operations touch. -/
structure StoreState where
  memory : List MemoryEntry := []
  checkpoints : List CSVCheckpoint := []
  cells : List CSVCell := []
deriving Repr, DecidableEq

/-- Go's `unicode.IsSpace` on the Latin-1 range: space, `\t`, `\n`, vertical
tab, form feed, `\r`, NEL (U+0085) and NBSP (U+00A0).  Space code points
outside Latin-1 (e.g. U+2028) are not modelled. -/
def goIsSpace (c : Char) : Bool :=
  c == ' ' || c == '\t' || c == '\n' || c == '\u000B' || c == '\u000C' ||
    c == '\r' || c == '\u0085' || c == ' '

/-- Go's `strings.TrimSpace` on a rune list: drop leading and trailing
whitespace. -/
def trimChars (l : List Char) : List Char :=
  ((l.dropWhile goIsSpace).reverse.dropWhile goIsSpace).reverse

/-- Go `strings.TrimSpace` on a string. -/
def trimString (s : String) : String := ⟨trimChars s.data⟩

/-- Go `store.normalizeText`: trim whitespace, then Unicode NFC composition.
The NFC normalizer (`golang.org/x/text/unicode/norm`) is an external
collaborator, passed in as `nfc`. -/
def normalizeText (nfc : String → String) (text : String) : String :=
  nfc (trimString text)

/-- The `WHERE source_text = ? AND source_lang = ? AND target_lang = ?`
filter of the memory queries. -/
def keyMatch (key sl tl : String) (e : MemoryEntry) : Bool :=
  e.sourceText == key && e.sourceLang == sl && e.targetLang == tl

/-- Go `store.GetCachedTranslation`: normalize the key, look the row up; absent
row or invalidated flag → not-found; on a hit bump the usage count and
refresh `last_used` (the `UPDATE ... WHERE` side effect), returning the final
text. -/
def getCachedTranslation (nfc : String → String) (st : StoreState) (now : Nat)
    (sourceText sourceLang targetLang : String) :
    (String × Bool) × StoreState :=
  let key := normalizeText nfc sourceText
  match st.memory.find? (keyMatch key sourceLang targetLang) with
  | none => (("", false), st)
  | some e =>
    if e.invalidated then (("", false), st)
    else
      ((e.finalText, true),
       { st with memory := st.memory.map (fun e' =>
           if keyMatch key sourceLang targetLang e' then
             { e' with usageCount := e'.usageCount + 1, lastUsed := now }
           else e') })

/-- Go `store.SaveToMemory`: `INSERT OR REPLACE` on the unique key triple,
resetting the usage count to 1 and clearing the invalidated flag. -/
def saveToMemory (nfc : String → String) (st : StoreState) (id : String)
    (now : Nat)
    (sourceText sourceLang targetLang finalText draftText serviceUsed :
      String) : StoreState :=
  let key := normalizeText nfc sourceText
  { st with memory :=
      st.memory.filter (fun e => !(keyMatch key sourceLang targetLang e)) ++
        [{ id := id, sourceText := key, sourceLang := sourceLang,
           targetLang := targetLang, finalText := finalText,
           draftText := draftText, serviceUsed := serviceUsed,
           usageCount := 1, invalidated := false, lastUsed := now,
           createdAt := now }] }

/-- Go `store.InvalidateMemory`: `UPDATE translation_memory SET invalidated =
TRUE WHERE id = ?` — the row remains. -/
def invalidateMemory (st : StoreState) (id : String) : StoreState :=
  { st with memory := st.memory.map (fun e =>
      if e.id == id then { e with invalidated := true } else e) }

/-- Go `store.DeleteMemory`: `DELETE FROM translation_memory WHERE id = ?`. -/
def deleteMemory (st : StoreState) (id : String) : StoreState :=
  { st with memory := st.memory.filter (fun e => !(e.id == id)) }

/-- Go `store.CreateCSVCheckpoint`: insert a row whose `status` takes the
schema default `'running'`, returning the generated id. -/
def createCSVCheckpoint (st : StoreState) (id : String) (now : Nat)
    (inputFile outputFile sourceLang targetLang : String) :
    String × StoreState :=
  (id,
   { st with checkpoints := st.checkpoints ++
      [{ id := id, inputFile := inputFile, outputFile := outputFile,
         sourceLang := sourceLang, targetLang := targetLang,
         status := "running", createdAt := now, updatedAt := now }] })

/-- Go `store.GetCSVCheckpoint`: look a checkpoint up by id. -/
def getCSVCheckpoint (st : StoreState) (checkpointId : String) :
    Option CSVCheckpoint :=
  st.checkpoints.find? (fun c => c.id == checkpointId)

/-- The `(checkpoint_id, row_idx, col_idx)` primary-key filter. -/
def cellKeyMatch (cp : String) (r c : Int) (cell : CSVCell) : Bool :=
  cell.checkpointId == cp && cell.rowIdx == r && cell.colIdx == c

/-- Go `store.SaveCSVCell`: `INSERT OR REPLACE` keyed by the triple. -/
def saveCSVCell (st : StoreState) (now : Nat) (checkpointId : String)
    (rowIdx colIdx : Int) (translatedText : String) : StoreState :=
  { st with cells :=
      st.cells.filter (fun x => !(cellKeyMatch checkpointId rowIdx colIdx x))
        ++ [{ checkpointId := checkpointId, rowIdx := rowIdx,
              colIdx := colIdx, translatedText := translatedText,
              createdAt := now }] }

/-- Go `store.GetCSVCells`: all saved cells of the checkpoint as a map keyed
`"row:col"` (`fmt.Sprintf("%d:%d", rowIdx, colIdx)`). -/
def getCSVCells (st : StoreState) (checkpointId : String) :
    List (String × String) :=
  (st.cells.filter (fun x => x.checkpointId == checkpointId)).map
    (fun x => (toString x.rowIdx ++ ":" ++ toString x.colIdx,
      x.translatedText))

/-- Go `store.CompleteCSVCheckpoint`: `UPDATE csv_checkpoints SET status =
'completed', updated_at = ? WHERE id = ?`. -/
def completeCSVCheckpoint (st : StoreState) (now : Nat)
    (checkpointId : String) : StoreState :=
  { st with checkpoints := st.checkpoints.map (fun c =>
      if c.id == checkpointId then
        { c with status := "completed", updatedAt := now }
      else c) }

/-! ## Store lemmas -/

/-- Helper: `find?` respects pointwise-equal predicates. -/
theorem find?_pred_congr {α : Type} (p q : α → Bool) (h : ∀ x, p x = q x) :
    ∀ l : List α, l.find? p = l.find? q := by
  intro l
  induction l with
  | nil => rfl
  | cons x l ih =>
    rw [List.find?_cons, List.find?_cons, h x, ih]

/-- Searching a mapped list for a predicate the map leaves invariant finds
the image of the original hit. -/
theorem find?_map_invariant {α : Type} (p : α → Bool) (g : α → α)
    (hinv : ∀ x, p (g x) = p x) (l : List α) :
    (l.map g).find? p = (l.find? p).map g := by
  rw [List.find?_map]
  rw [show p ∘ g = fun x => p (g x) from rfl]
  rw [find?_pred_congr (fun x => p (g x)) p hinv l]

/-! ## Claim theorems: exact cache lookup and CSV checkpoints -/

/-- C4 — Exact cache lookup: `GetCachedTranslation` normalizes the key
(trim + NFC), looks up the entry for that key, returns not-found when no
entry exists or when the entry is invalidated; on a hit it increments the
usage count and refreshes `last_used` as a side effect and returns the final
text; after `InvalidateMemory(id)` on the matching entry, lookups for its key
return not-found even though the row still exists, while after
`DeleteMemory(id)` the row is gone. -/
theorem C4_getCachedTranslation (nfc : String → String) (st : StoreState)
    (now : Nat) (sourceText sourceLang targetLang : String) :
    (st.memory.find? (keyMatch (normalizeText nfc sourceText) sourceLang
        targetLang) = none →
      getCachedTranslation nfc st now sourceText sourceLang targetLang =
        (("", false), st)) ∧
    (∀ e, st.memory.find? (keyMatch (normalizeText nfc sourceText) sourceLang
        targetLang) = some e → e.invalidated = true →
      getCachedTranslation nfc st now sourceText sourceLang targetLang =
        (("", false), st)) ∧
    (∀ e, st.memory.find? (keyMatch (normalizeText nfc sourceText) sourceLang
        targetLang) = some e → e.invalidated = false →
      (getCachedTranslation nfc st now sourceText sourceLang
          targetLang).1 = (e.finalText, true) ∧
      (getCachedTranslation nfc st now sourceText sourceLang
          targetLang).2.memory.find?
          (keyMatch (normalizeText nfc sourceText) sourceLang targetLang) =
        some { e with usageCount := e.usageCount + 1, lastUsed := now }) ∧
    (∀ e, st.memory.find? (keyMatch (normalizeText nfc sourceText) sourceLang
        targetLang) = some e →
      (getCachedTranslation nfc (invalidateMemory st e.id) now sourceText
          sourceLang targetLang).1 = ("", false) ∧
      (∃ e' ∈ (invalidateMemory st e.id).memory, e'.id = e.id) ∧
      (invalidateMemory st e.id).memory.length = st.memory.length) ∧
    (∀ (id : String), ∀ e' ∈ (deleteMemory st id).memory, e'.id ≠ id) := by
  refine ⟨?_, ?_, ?_, ?_, ?_⟩
  · intro h
    simp only [getCachedTranslation, h]
  · intro e hfind hinv
    simp only [getCachedTranslation, hfind, hinv, if_true]
  · intro e hfind hinv
    have hkey : keyMatch (normalizeText nfc sourceText) sourceLang targetLang
        e = true := List.find?_some hfind
    constructor
    · simp [getCachedTranslation, hfind, hinv]
    · simp only [getCachedTranslation, hfind, hinv, Bool.false_eq_true,
        if_false]
      rw [find?_map_invariant _ _ ?hg]
      · rw [hfind]
        simp [hkey, hinv]
      case hg =>
        intro x
        by_cases hx : keyMatch (normalizeText nfc sourceText) sourceLang
            targetLang x = true
        · rw [if_pos hx]; rfl
        · rw [if_neg hx]
  · intro e hfind
    have hkey : keyMatch (normalizeText nfc sourceText) sourceLang targetLang
        e = true := List.find?_some hfind
    have hmem : e ∈ st.memory := List.mem_of_find?_eq_some hfind
    have hg : ∀ x, keyMatch (normalizeText nfc sourceText) sourceLang
        targetLang (if x.id == e.id then { x with invalidated := true }
          else x) =
        keyMatch (normalizeText nfc sourceText) sourceLang targetLang x := by
      intro x
      by_cases hx : x.id == e.id
      · rw [if_pos hx]; rfl
      · rw [if_neg hx]
    refine ⟨?_, ?_, ?_⟩
    · have hfind' : (invalidateMemory st e.id).memory.find?
          (keyMatch (normalizeText nfc sourceText) sourceLang targetLang) =
          some { e with invalidated := true } := by
        rw [invalidateMemory]
        rw [find?_map_invariant _ _ hg]
        rw [hfind]
        simp
      simp [getCachedTranslation, hfind']
    · exact ⟨if e.id == e.id then { e with invalidated := true } else e,
        List.mem_map_of_mem _ hmem, by rw [if_pos (by simp)]⟩
    · exact List.length_map _ _
  · intro id e' hmem
    have := List.of_mem_filter hmem
    simpa using this

/-- A sample cached row used by the C4 witness. -/
def sampleMemoryEntry : MemoryEntry where
  id := "m1"
  sourceText := "hello"
  sourceLang := "en"
  targetLang := "uk"
  finalText := "pryvit"

/-- A sample one-row store used by the C4 witness. -/
def sampleStore : StoreState where
  memory := [sampleMemoryEntry]

/-- Witness for C4: in the one-entry store the hit returns the final text. -/
theorem C4_getCachedTranslation_witness :
    sampleStore.memory.find?
      (keyMatch (normalizeText id "hello") "en" "uk") =
      some sampleMemoryEntry ∧
    (getCachedTranslation id sampleStore 7 "hello" "en" "uk").1 =
      ("pryvit", true) :=
  ⟨by decide,
   ((C4_getCachedTranslation id sampleStore 7 "hello" "en" "uk").2.2.1
      sampleMemoryEntry (by decide) (by decide)).1⟩

/-- Helper: `find?` skips a prefix containing no hit. -/
theorem find?_append_none {α : Type} (p : α → Bool) (l₁ l₂ : List α)
    (h : l₁.find? p = none) : (l₁ ++ l₂).find? p = l₂.find? p := by
  induction l₁ with
  | nil => rfl
  | cons x l ih =>
    cases hx : p x with
    | true =>
      rw [List.find?_cons_of_pos _ hx] at h
      exact absurd h (by simp)
    | false =>
      rw [List.find?_cons_of_neg _ (by simp [hx])] at h
      rw [List.cons_append, List.find?_cons_of_neg _ (by simp [hx])]
      exact ih h

/-- C9 — CSV checkpoint lifecycle: `CreateCSVCheckpoint` creates a
checkpoint with status `"running"` and returns its identity; `SaveCSVCell`
is an idempotent upsert keyed by `(checkpointId, row, col)`; `GetCSVCells`
returns exactly the saved cells keyed `"row:col"` (saving cell `(0,1) = "X"`
then reading yields `{"0:1": "X"}`); `CompleteCSVCheckpoint` transitions the
status from `"running"` to `"completed"`. -/
theorem C9_csv_checkpoint_lifecycle (st : StoreState) (now now' : Nat)
    (cpId inputFile outputFile sourceLang targetLang : String)
    (rowIdx colIdx : Int) (t1 t2 : String) :
    ((∀ c ∈ st.checkpoints, c.id ≠ cpId) →
      (createCSVCheckpoint st cpId now inputFile outputFile sourceLang
          targetLang).1 = cpId ∧
      getCSVCheckpoint (createCSVCheckpoint st cpId now inputFile outputFile
          sourceLang targetLang).2 cpId =
        some
          { id := cpId
            inputFile := inputFile
            outputFile := outputFile
            sourceLang := sourceLang
            targetLang := targetLang
            status := "running"
            createdAt := now
            updatedAt := now }) ∧
    (saveCSVCell (saveCSVCell st now cpId rowIdx colIdx t1) now' cpId rowIdx
        colIdx t2 =
      saveCSVCell st now' cpId rowIdx colIdx t2) ∧
    (∀ c, getCSVCheckpoint st cpId = some c →
      getCSVCheckpoint (completeCSVCheckpoint st now' cpId) cpId =
        some { c with status := "completed", updatedAt := now' }) ∧
    (getCSVCells
        (saveCSVCell
          (createCSVCheckpoint {} "cp_1" 0 "in.csv" "out.csv" "en" "uk").2
          1 "cp_1" 0 1 "X") "cp_1" = [("0:1", "X")] ∧
      getCSVCheckpoint
          (completeCSVCheckpoint
            (createCSVCheckpoint {} "cp_1" 0 "in.csv" "out.csv" "en"
              "uk").2 2 "cp_1") "cp_1" =
        some
          { id := "cp_1"
            inputFile := "in.csv"
            outputFile := "out.csv"
            sourceLang := "en"
            targetLang := "uk"
            status := "completed"
            createdAt := 0
            updatedAt := 2 }) := by
  refine ⟨?_, ?_, ?_, by decide, by decide⟩
  · intro hfresh
    refine ⟨rfl, ?_⟩
    rw [getCSVCheckpoint, createCSVCheckpoint]
    rw [find?_append_none]
    · simp
    · rw [List.find?_eq_none]
      intro c hc
      simpa using hfresh c hc
  · rw [saveCSVCell, saveCSVCell, saveCSVCell]
    have hcells : ∀ cs : List CSVCell,
        (cs.filter (fun x => !(cellKeyMatch cpId rowIdx colIdx x)) ++
          [(⟨cpId, rowIdx, colIdx, t1, now⟩ : CSVCell)]).filter
          (fun x => !(cellKeyMatch cpId rowIdx colIdx x)) =
        cs.filter (fun x => !(cellKeyMatch cpId rowIdx colIdx x)) := by
      intro cs
      rw [List.filter_append]
      have h1 : List.filter (fun x => !(cellKeyMatch cpId rowIdx colIdx x))
          [(⟨cpId, rowIdx, colIdx, t1, now⟩ : CSVCell)] = [] := by
        simp [cellKeyMatch]
      rw [h1, List.append_nil]
      rw [List.filter_filter]
      apply List.filter_congr
      intro x _
      rw [Bool.and_self]
    rw [hcells]
  · intro c hfind
    rw [getCSVCheckpoint] at hfind
    have hid : (c.id == cpId) = true := by
      have h := List.find?_some hfind
      simpa using h
    rw [getCSVCheckpoint, completeCSVCheckpoint]
    rw [find?_map_invariant _ _ ?hg]
    · rw [hfind]
      simp [hid]
      intro hne
      exact absurd (by simpa using hid) hne
    case hg =>
      intro x
      by_cases hx : (x.id == cpId) = true
      · rw [if_pos hx]
      · rw [if_neg hx]

/-- Witness for C9: the freshness and lookup hypotheses hold on the empty
store / the store holding the just-created checkpoint. -/
theorem C9_csv_checkpoint_lifecycle_witness :
    (∀ c ∈ ({} : StoreState).checkpoints, c.id ≠ "cp_1") ∧
    (createCSVCheckpoint {} "cp_1" 0 "in.csv" "out.csv" "en" "uk").1 =
      "cp_1" ∧
    getCSVCheckpoint (createCSVCheckpoint {} "cp_1" 0 "in.csv" "out.csv"
        "en" "uk").2 "cp_1" =
      some
        { id := "cp_1"
          inputFile := "in.csv"
          outputFile := "out.csv"
          sourceLang := "en"
          targetLang := "uk"
          status := "running"
          createdAt := 0
          updatedAt := 0 } :=
  ⟨by decide,
   (C9_csv_checkpoint_lifecycle {} 0 0 "cp_1" "in.csv" "out.csv" "en" "uk"
      0 1 "X" "Y").1 (by decide)⟩

/-! ## Edit distance (`store.levenshtein`)

The Go function is a space-optimised two-row dynamic program over runes.
It is embedded as such (`levCells` / `levStep` / `levenshtein`), then proved
equal to a structural reference recursion (`levRec`) on the reversed rune
lists, from which its arithmetic properties follow. -/

/-- Reference edit distance by structural recursion.  `levRec u v` is the
edit distance between the *reversed* lists `u.reverse` and `v.reverse`
(equivalently: between `u` and `v`, distance being reversal-invariant); the
branch structure mirrors the Go cell computation
`min(min(prev[j], prev[j-1]), curr[j-1]) + 1`. -/
def levRec : List Char → List Char → Nat
  | [], ys => ys.length
  | x :: xs, [] => (x :: xs).length
  | x :: xs, y :: ys =>
    if x = y then levRec xs ys
    else 1 + min (min (levRec xs (y :: ys)) (levRec xs ys))
      (levRec (x :: xs) ys)
theorem levRec_nil_left (ys : List Char) : levRec [] ys = ys.length := by
  rw [levRec]

theorem levRec_nil_right (u : List Char) : levRec u [] = u.length := by
  cases u with
  | nil => rw [levRec]
  | cons x xs => rw [levRec]

theorem levRec_cons_cons (x y : Char) (xs ys : List Char) :
    levRec (x :: xs) (y :: ys) =
      if x = y then levRec xs ys
      else 1 + min (min (levRec xs (y :: ys)) (levRec xs ys))
        (levRec (x :: xs) ys) := by
  rw [levRec]

theorem levRec_self : ∀ u : List Char, levRec u u = 0 := by
  intro u
  induction u with
  | nil => rw [levRec]; rfl
  | cons x xs ih => rw [levRec_cons_cons]; simp [ih]

/-- Both length differences are bounded by the edit distance. -/
theorem levRec_length_bound : ∀ u v : List Char,
    v.length ≤ u.length + levRec u v ∧ u.length ≤ v.length + levRec u v := by
  intro u v
  generalize hn : u.length + v.length = n
  induction n using Nat.strong_induction_on generalizing u v with
  | _ n ih =>
    match u, v with
    | [], v => simp [levRec_nil_left]
    | x :: xs, [] => simp [levRec_nil_right]
    | x :: xs, y :: ys =>
      have hlen : xs.length + 1 + (ys.length + 1) = n := by
        simpa using hn
      rw [levRec_cons_cons]
      by_cases hxy : x = y
      · rw [if_pos hxy]
        have h := ih (xs.length + ys.length) (by omega) xs ys rfl
        simp only [List.length_cons]
        omega
      · rw [if_neg hxy]
        have h1 := ih (xs.length + (y :: ys).length) (by simp; omega)
          xs (y :: ys) rfl
        have h2 := ih (xs.length + ys.length) (by omega) xs ys rfl
        have h3 := ih ((x :: xs).length + ys.length) (by simp; omega)
          (x :: xs) ys rfl
        simp only [List.length_cons] at *
        omega

/-- One inner-loop pass of the two-row DP: `ys` holds the remaining
characters of `b`, the list argument the previous row from index `j-1` on
(`prev[j-1] :: prev[j] :: …`), `z` the value `curr[j-1]`; produces
`curr[j] :: curr[j+1] :: …`.  The cell formula is Go's
`if ra[i-1] == rb[j-1] { prev[j-1] } else { 1 + min(min(prev[j], prev[j-1]),
curr[j-1]) }`. -/
def levCells (c : Char) : List Char → List Nat → Nat → List Nat
  | y :: ys, pPrev :: pUp :: prest, z =>
    let w := if c = y then pPrev else 1 + min (min pUp pPrev) z
    w :: levCells c ys (pUp :: prest) w
  | _, _, _ => []

/-- One outer-loop pass: the next DP row from `prev` for character `c`
(`curr[0] = i = prev[0] + 1`). -/
def levStep (rb : List Char) : List Nat → Char → List Nat
  | [], _ => []
  | p0 :: prest, c => (p0 + 1) :: levCells c rb (p0 :: prest) (p0 + 1)

/-- Go `store.levenshtein`: rune-aware edit distance via the space-optimised
two-row DP (`len(ra) == 0` / `len(rb) == 0` short-circuit as in Go, then
the row iteration; the result is the last entry of the final row). -/
def levenshtein (a b : String) : Nat :=
  let ra := a.data
  let rb := b.data
  if ra.length = 0 then rb.length
  else if rb.length = 0 then ra.length
  else ((ra.foldl (levStep rb) (List.range (rb.length + 1))).getLast?).getD 0

/-- The DP row after processing the reversed prefix `ρ` of `a`: cell `j`
holds `levRec ρ w` for `w` the reversed prefix of `b` of length `j`.
`rowFrom ρ v ys` is the row segment starting at reversed prefix `v`,
continuing through the remaining characters `ys`. -/
def rowFrom (ρ : List Char) : List Char → List Char → List Nat
  | v, [] => [levRec ρ v]
  | v, y :: ys => levRec ρ v :: rowFrom ρ (y :: v) ys

/-- The inner loop maps the row for `ρ` to the row for `c :: ρ`. -/
theorem rowFrom_levCells (c : Char) (ρ : List Char) :
    ∀ (ys v : List Char),
      rowFrom (c :: ρ) v ys =
        levRec (c :: ρ) v ::
          levCells c ys (rowFrom ρ v ys) (levRec (c :: ρ) v) := by
  intro ys
  induction ys with
  | nil => intro v; rfl
  | cons y ys ih =>
    intro v
    have hcell : levRec (c :: ρ) (y :: v) =
        if c = y then levRec ρ v
        else 1 + min (min (levRec ρ (y :: v)) (levRec ρ v))
          (levRec (c :: ρ) v) := levRec_cons_cons c y ρ v
    cases ys with
    | nil =>
      simp only [rowFrom, levCells]
      rw [← hcell]
    | cons y' ys' =>
      simp only [rowFrom, levCells]
      rw [← hcell]
      have hih := ih (y :: v)
      simp only [rowFrom] at hih
      rw [← hih]

/-- The outer loop maps the row for `ρ` to the row for `c :: ρ`. -/
theorem levStep_rowFrom (rb : List Char) (c : Char) (ρ : List Char) :
    levStep rb (rowFrom ρ [] rb) c = rowFrom (c :: ρ) [] rb := by
  have hz : levRec ρ [] + 1 = levRec (c :: ρ) [] := by
    rw [levRec_nil_right, levRec_nil_right]
    simp
  cases rb with
  | nil =>
    simp only [rowFrom, levStep, levCells]
    rw [hz]
  | cons y ys =>
    simp only [rowFrom, levStep]
    rw [hz]
    have h := rowFrom_levCells c ρ (y :: ys) []
    simp only [rowFrom] at h
    rw [← h]

/-- The initial row (`prev[j] = j`) is the row for the empty prefix. -/
theorem rowFrom_nil : ∀ (ys v : List Char),
    rowFrom [] v ys = List.range' v.length (ys.length + 1) := by
  intro ys
  induction ys with
  | nil =>
    intro v
    simp only [rowFrom, levRec_nil_left, List.length_nil]
    rw [List.range'_one]
  | cons y ys ih =>
    intro v
    simp only [rowFrom, levRec_nil_left, List.length_cons]
    rw [ih (y :: v)]
    simp only [List.length_cons]
    simp only [List.range'_succ]

/-- Folding the outer loop over a prefix of `a` yields that prefix's row. -/
theorem foldl_levStep (rb : List Char) :
    ∀ (p ρ : List Char),
      p.foldl (levStep rb) (rowFrom ρ [] rb) =
        rowFrom (p.reverse ++ ρ) [] rb := by
  intro p
  induction p with
  | nil => intro ρ; simp
  | cons c p ih =>
    intro ρ
    rw [List.foldl_cons, levStep_rowFrom, ih (c :: ρ)]
    have h : p.reverse ++ (c :: ρ) = (c :: p).reverse ++ ρ := by simp
    rw [h]

/-- The last cell of a row is the distance to the whole of `b`. -/
theorem rowFrom_getLast? (ρ : List Char) :
    ∀ (ys v : List Char),
      (rowFrom ρ v ys).getLast? = some (levRec ρ (ys.reverse ++ v)) := by
  intro ys
  induction ys with
  | nil => intro v; simp [rowFrom]
  | cons y ys ih =>
    intro v
    have hstep : rowFrom ρ v (y :: ys) = levRec ρ v :: rowFrom ρ (y :: v) ys :=
      rfl
    rw [hstep]
    have hlast : (levRec ρ v :: rowFrom ρ (y :: v) ys).getLast? =
        (rowFrom ρ (y :: v) ys).getLast? := by
      cases ys with
      | nil => rfl
      | cons y' ys' =>
        have hstep' : rowFrom ρ (y :: v) (y' :: ys') =
            levRec ρ (y :: v) :: rowFrom ρ (y' :: y :: v) ys' := rfl
        rw [hstep', List.getLast?_cons_cons]
    rw [hlast, ih (y :: v)]
    have harr : ys.reverse ++ (y :: v) = (y :: ys).reverse ++ v := by simp
    rw [harr]

/-- The two-row DP computes the reference edit distance (stated on the
reversed rune lists; nothing downstream needs reversal-invariance of the
distance itself). -/
theorem levenshtein_eq_levRec (a b : String) :
    levenshtein a b = levRec a.data.reverse b.data.reverse := by
  rw [levenshtein]
  by_cases ha : a.data.length = 0
  · rw [if_pos ha]
    have h : a.data = [] := List.length_eq_zero.mp ha
    rw [h]
    simp [levRec_nil_left]
  · rw [if_neg ha]
    by_cases hb : b.data.length = 0
    · rw [if_pos hb]
      have h : b.data = [] := List.length_eq_zero.mp hb
      rw [h]
      simp [levRec_nil_right]
    · rw [if_neg hb]
      have hinit : List.range (b.data.length + 1) = rowFrom [] [] b.data := by
        rw [rowFrom_nil b.data [], List.range_eq_range']
        rfl
      rw [hinit, foldl_levStep b.data a.data []]
      rw [List.append_nil]
      rw [rowFrom_getLast?]
      rw [List.append_nil]
      rfl

theorem levenshtein_self (a : String) : levenshtein a a = 0 := by
  rw [levenshtein_eq_levRec, levRec_self]

/-- The length difference lower bound carried to `levenshtein`. -/
theorem levenshtein_length_bound (a b : String) :
    b.length ≤ a.length + levenshtein a b ∧
      a.length ≤ b.length + levenshtein a b := by
  rw [levenshtein_eq_levRec]
  have h := levRec_length_bound a.data.reverse b.data.reverse
  have ha : a.data.reverse.length = a.length := by
    rw [List.length_reverse]
    rfl
  have hb : b.data.reverse.length = b.length := by
    rw [List.length_reverse]
    rfl
  rw [ha, hb] at h
  exact h
/-! ## Fuzzy cache lookup (`store.stringSimilarity`,
`store.FuzzyGetCachedTranslation`)

`float64` arithmetic is modelled exactly over `ℚ`. -/

/-- Go `store.stringSimilarity`: similarity in `[0,1]`, mirroring the Go code
(`a == b` shortcut, then `1 - levenshtein/maxLen` with a `maxLen == 0`
guard). -/
def stringSimilarity (a b : String) : ℚ :=
  if a = b then 1
  else
    let la := a.length
    let lb := b.length
    let maxLen := max la lb
    if maxLen = 0 then 1
    else 1 - (levenshtein a b : ℚ) / (maxLen : ℚ)

/-- The similarity formula as the specification states it:
`1 − levenshtein(query, candidate) / max(len(query), len(candidate))`,
`1.0` when both strings are empty. -/
def simSpec (q c : String) : ℚ :=
  if q.length = 0 ∧ c.length = 0 then 1
  else 1 - (levenshtein q c : ℚ) / ((max q.length c.length : ℕ) : ℚ)

/-- A string of length zero is the empty string. -/
theorem length_zero_eq (a b : String) (ha : a.length = 0) (hb : b.length = 0) :
    a = b := by
  have ha' : a.data = [] := List.length_eq_zero.mp ha
  have hb' : b.data = [] := List.length_eq_zero.mp hb
  cases a with
  | mk da =>
    cases b with
    | mk db =>
      simp only at ha' hb'
      rw [ha', hb']

/-- The code's `stringSimilarity` computes the specification's formula. -/
theorem stringSimilarity_eq_simSpec (a b : String) :
    stringSimilarity a b = simSpec a b := by
  rw [stringSimilarity, simSpec]
  by_cases hab : a = b
  · subst hab
    rw [if_pos rfl]
    by_cases h0 : a.length = 0 ∧ a.length = 0
    · rw [if_pos h0]
    · rw [if_neg h0]
      rw [levenshtein_self]
      simp
  · rw [if_neg hab]
    have hmax : ¬ (max a.length b.length = 0) := by
      intro h
      exact hab (length_zero_eq a b (by omega) (by omega))
    rw [if_neg hmax]
    rw [if_neg (fun h => hmax (by omega))]

/-- The `WHERE source_lang = ? AND target_lang = ? AND NOT invalidated`
scan of the fuzzy lookup, in table order. -/
def fuzzyFilter (sl tl : String) (st : StoreState) : List MemoryEntry :=
  st.memory.filter
    (fun e => e.sourceLang == sl && e.targetLang == tl && !e.invalidated)

/-- One candidate step of the fuzzy scan: the O(1) length pre-filter
(`maxL > 0 && 1 - |ls-lr|/maxL < threshold` → skip), then the similarity
update (`score >= threshold && score > bestScore`). -/
def fuzzyStep (normalized : String) (threshold : ℚ) (acc : ℚ × String)
    (e : MemoryEntry) : ℚ × String :=
  let ls := normalized.length
  let lr := e.sourceText.length
  let maxL := max ls lr
  let diff := if ls ≤ lr then lr - ls else ls - lr
  if 0 < maxL ∧ 1 - (diff : ℚ) / (maxL : ℚ) < threshold then acc
  else
    let score := stringSimilarity normalized e.sourceText
    if threshold ≤ score ∧ acc.1 < score then (score, e.finalText) else acc

/-- Go `store.FuzzyGetCachedTranslation`: disabled for `threshold ≤ 0`;
refuses queries longer than 1000 runes after normalization; otherwise scans
the non-invalidated entries of the language pair and returns the best
final text, the empty string doubling as the no-match sentinel. -/
def fuzzyGetCachedTranslation (nfc : String → String) (st : StoreState)
    (sourceText sourceLang targetLang : String) (threshold : ℚ) :
    String × Bool :=
  if threshold ≤ 0 then ("", false)
  else
    let normalized := normalizeText nfc sourceText
    if 1000 < normalized.length then ("", false)
    else
      let best := (fuzzyFilter sourceLang targetLang st).foldl
        (fuzzyStep normalized threshold) (0, "")
      if best.2 ≠ "" then (best.2, true) else ("", false)

/-- Specification-side selection step: among candidates with similarity at
or above the threshold, keep the first one attaining the maximum. -/
def selectStep (q : String) (th : ℚ) (acc : Option MemoryEntry)
    (e : MemoryEntry) : Option MemoryEntry :=
  if th ≤ simSpec q e.sourceText then
    match acc with
    | none => some e
    | some b =>
      if simSpec q b.sourceText < simSpec q e.sourceText then some e else acc
  else acc

/-- Specification-side selection: the first candidate attaining the highest
similarity `≥ th`, or `none` when no candidate reaches the threshold. -/
def selectBest (q : String) (th : ℚ) (cands : List MemoryEntry) :
    Option MemoryEntry :=
  cands.foldl (selectStep q th) none

/-- How the scan renders the selected candidate: its final text, except that
an empty stored final text is indistinguishable from the no-match sentinel
and yields not-found. -/
def renderBest : Option MemoryEntry → String × Bool
  | some b => if b.finalText = "" then ("", false) else (b.finalText, true)
  | none => ("", false)

/-- Soundness of the length pre-filter: a skipped candidate cannot reach the
threshold. -/
theorem prefilter_sound (q c : String) (th : ℚ)
    (hmax : 0 < max q.length c.length)
    (hlt : 1 - ((if q.length ≤ c.length then c.length - q.length
        else q.length - c.length : ℕ) : ℚ) /
        ((max q.length c.length : ℕ) : ℚ) < th) :
    simSpec q c < th := by
  have hbound := levenshtein_length_bound q c
  have hdiff : (if q.length ≤ c.length then c.length - q.length
      else q.length - c.length) ≤ levenshtein q c := by
    by_cases h : q.length ≤ c.length <;> simp [h] <;> omega
  have hnot0 : ¬ (q.length = 0 ∧ c.length = 0) := by
    intro h
    omega
  rw [simSpec, if_neg hnot0]
  have hcast : ((if q.length ≤ c.length then c.length - q.length
      else q.length - c.length : ℕ) : ℚ) ≤ (levenshtein q c : ℚ) :=
    Nat.cast_le.mpr hdiff
  have hmaxq : (0 : ℚ) < ((max q.length c.length : ℕ) : ℚ) := by
    exact_mod_cast hmax
  have hdivle : ((if q.length ≤ c.length then c.length - q.length
      else q.length - c.length : ℕ) : ℚ) /
        ((max q.length c.length : ℕ) : ℚ) ≤
      (levenshtein q c : ℚ) / ((max q.length c.length : ℕ) : ℚ) :=
    (div_le_div_iff_of_pos_right hmaxq).mpr hcast
  calc 1 - (levenshtein q c : ℚ) / ((max q.length c.length : ℕ) : ℚ)
      ≤ 1 - ((if q.length ≤ c.length then c.length - q.length
          else q.length - c.length : ℕ) : ℚ) /
          ((max q.length c.length : ℕ) : ℚ) := by linarith
    _ < th := hlt

theorem selectStep_not_le (q : String) (th : ℚ) (acc : Option MemoryEntry)
    (e : MemoryEntry) (hsc : ¬ th ≤ simSpec q e.sourceText) :
    selectStep q th acc e = acc := by
  rw [selectStep.eq_def, if_neg hsc]

theorem selectStep_le_none (q : String) (th : ℚ) (e : MemoryEntry)
    (hsc : th ≤ simSpec q e.sourceText) :
    selectStep q th none e = some e := by
  rw [selectStep.eq_def, if_pos hsc]

theorem selectStep_le_some (q : String) (th : ℚ) (e b1 : MemoryEntry)
    (hsc : th ≤ simSpec q e.sourceText) :
    selectStep q th (some b1) e =
      if simSpec q b1.sourceText < simSpec q e.sourceText then some e
      else some b1 := by
  rw [selectStep.eq_def, if_pos hsc]

/-- Relation between the code's `(bestScore, bestFinal)` accumulator and the
specification-side selected candidate. -/
def fuzzyAccRel (q : String) (th : ℚ) (acc : ℚ × String)
    (sb : Option MemoryEntry) : Prop :=
  (sb = none ∧ acc = (0, "")) ∨
    (∃ b, sb = some b ∧ acc = (simSpec q b.sourceText, b.finalText) ∧
      th ≤ simSpec q b.sourceText)

/-- The code's scan and the specification-side selection stay in lock-step.
-/
theorem fuzzyFold_correspond (q : String) (th : ℚ) (hth : 0 < th) :
    ∀ (cands : List MemoryEntry) (acc : ℚ × String)
      (sb : Option MemoryEntry),
      fuzzyAccRel q th acc sb →
      fuzzyAccRel q th (cands.foldl (fuzzyStep q th) acc)
        (cands.foldl (selectStep q th) sb) := by
  intro cands
  induction cands with
  | nil => intro acc sb h; exact h
  | cons e rest ih =>
    intro acc sb h
    rw [List.foldl_cons, List.foldl_cons]
    apply ih
    by_cases hskip : 0 < max q.length e.sourceText.length ∧
        1 - ((if q.length ≤ e.sourceText.length then
            e.sourceText.length - q.length
          else q.length - e.sourceText.length : ℕ) : ℚ) /
          ((max q.length e.sourceText.length : ℕ) : ℚ) < th
    · have hfz : fuzzyStep q th acc e = acc := by
        rw [fuzzyStep, if_pos hskip]
      have hlt : simSpec q e.sourceText < th :=
        prefilter_sound q e.sourceText th hskip.1 hskip.2
      rw [hfz, selectStep_not_le q th sb e (not_le.mpr hlt)]
      exact h
    · have hfz : fuzzyStep q th acc e =
          (if th ≤ simSpec q e.sourceText ∧ acc.1 < simSpec q e.sourceText
            then (simSpec q e.sourceText, e.finalText) else acc) := by
        rw [fuzzyStep, if_neg hskip, stringSimilarity_eq_simSpec]
      rcases h with ⟨hsb, hacc⟩ | ⟨b, hsb, hacc, hb⟩
      · subst hsb
        rw [hfz, hacc]
        by_cases hsc : th ≤ simSpec q e.sourceText
        · have hpos : (0 : ℚ) < simSpec q e.sourceText :=
            lt_of_lt_of_le hth hsc
          rw [selectStep_le_none q th e hsc, if_pos ⟨hsc, hpos⟩]
          exact Or.inr ⟨e, rfl, rfl, hsc⟩
        · rw [selectStep_not_le q th none e hsc,
            if_neg (fun hc => hsc hc.1)]
          exact Or.inl ⟨rfl, rfl⟩
      · subst hsb
        rw [hfz, hacc]
        by_cases hsc : th ≤ simSpec q e.sourceText
        · rw [selectStep_le_some q th e b hsc]
          by_cases himp : simSpec q b.sourceText < simSpec q e.sourceText
          · rw [if_pos himp, if_pos ⟨hsc, himp⟩]
            exact Or.inr ⟨e, rfl, rfl, hsc⟩
          · rw [if_neg himp, if_neg (fun hc => himp hc.2)]
            exact Or.inr ⟨b, rfl, rfl, hb⟩
        · rw [selectStep_not_le q th (some b) e hsc,
            if_neg (fun hc => hsc hc.1)]
          exact Or.inr ⟨b, rfl, rfl, hb⟩

/-- The scan equals the specification-side selection, rendered through the
empty-string sentinel. -/
theorem fuzzyGet_eq_selectBest (nfc : String → String) (st : StoreState)
    (sourceText sourceLang targetLang : String) (th : ℚ) (hth : 0 < th)
    (hlen : (normalizeText nfc sourceText).length ≤ 1000) :
    fuzzyGetCachedTranslation nfc st sourceText sourceLang targetLang th =
      renderBest (selectBest (normalizeText nfc sourceText) th
        (fuzzyFilter sourceLang targetLang st)) := by
  rw [fuzzyGetCachedTranslation]
  rw [if_neg (not_le.mpr hth)]
  simp only
  rw [if_neg (not_lt.mpr hlen)]
  have hrel := fuzzyFold_correspond (normalizeText nfc sourceText) th hth
    (fuzzyFilter sourceLang targetLang st) (0, "") none
    (Or.inl ⟨rfl, rfl⟩)
  rw [selectBest]
  rcases hrel with ⟨hsb, hacc⟩ | ⟨b, hsb, hacc, _⟩
  · rw [hsb, hacc]
    rfl
  · rw [hsb, hacc]
    rw [renderBest]
    by_cases hf : b.finalText = ""
    · rw [if_pos hf]
      simp [hf]
    · rw [if_neg hf]
      simp [hf]

/-- A successful specification-side selection is a maximal in-threshold
candidate (`ties keep the first` is the fold's strict-improvement rule). -/
theorem selectFold_some (q : String) (th : ℚ) :
    ∀ (cands : List MemoryEntry) (acc : Option MemoryEntry) (b : MemoryEntry),
      cands.foldl (selectStep q th) acc = some b →
      ((b ∈ cands ∧ th ≤ simSpec q b.sourceText) ∨ acc = some b) ∧
      (∀ e ∈ cands, th ≤ simSpec q e.sourceText →
        simSpec q e.sourceText ≤ simSpec q b.sourceText) ∧
      (∀ b0, acc = some b0 →
        simSpec q b0.sourceText ≤ simSpec q b.sourceText) := by
  intro cands
  induction cands with
  | nil =>
    intro acc b h
    refine ⟨Or.inr h, by simp, ?_⟩
    intro b0 h0
    rw [h0] at h
    rw [Option.some.inj h]
  | cons e rest ih =>
    intro acc b h
    rw [List.foldl_cons] at h
    obtain ⟨hm, hmax, hb0⟩ := ih (selectStep q th acc e) b h
    by_cases hsc : th ≤ simSpec q e.sourceText
    · have hstep : ∀ b0, selectStep q th acc e = some b0 →
          simSpec q e.sourceText ≤ simSpec q b0.sourceText ∧
          ((b0 = e) ∨ acc = some b0) := by
        intro b0 h0
        match acc with
        | none =>
          rw [selectStep_le_none q th e hsc] at h0
          obtain rfl : e = b0 := Option.some.inj h0
          exact ⟨le_refl _, Or.inl rfl⟩
        | some b1 =>
          rw [selectStep_le_some q th e b1 hsc] at h0
          by_cases himp : simSpec q b1.sourceText < simSpec q e.sourceText
          · rw [if_pos himp] at h0
            obtain rfl : e = b0 := Option.some.inj h0
            exact ⟨le_refl _, Or.inl rfl⟩
          · rw [if_neg himp] at h0
            obtain rfl : b1 = b0 := Option.some.inj h0
            exact ⟨not_lt.mp himp, Or.inr rfl⟩
      have hsome : ∃ b1, selectStep q th acc e = some b1 := by
        match acc with
        | none => exact ⟨e, selectStep_le_none q th e hsc⟩
        | some b1 =>
          rw [selectStep_le_some q th e b1 hsc]
          by_cases himp : simSpec q b1.sourceText < simSpec q e.sourceText
          · rw [if_pos himp]; exact ⟨e, rfl⟩
          · rw [if_neg himp]; exact ⟨b1, rfl⟩
      obtain ⟨b1, hb1⟩ := hsome
      obtain ⟨hle, hcase⟩ := hstep b1 hb1
      have hb1le : simSpec q b1.sourceText ≤ simSpec q b.sourceText :=
        hb0 b1 hb1
      refine ⟨?_, ?_, ?_⟩
      · rcases hm with ⟨hmem, hth'⟩ | hacc'
        · exact Or.inl ⟨List.mem_cons_of_mem _ hmem, hth'⟩
        · rw [hacc'] at hb1
          obtain rfl : b = b1 := Option.some.inj hb1
          rcases hcase with rfl | hacc''
          · exact Or.inl ⟨List.mem_cons_self _ _, hsc⟩
          · exact Or.inr hacc''
      · intro e' he' hth'
        rcases List.mem_cons.mp he' with rfl | he'
        · exact le_trans hle hb1le
        · exact hmax e' he' hth'
      · intro b0 h0
        obtain ⟨_, hcase0⟩ := hstep b1 hb1
        rcases hcase0 with rfl | hacc''
        · rw [h0] at hb1
          rw [selectStep_le_some q th b1 b0 hsc] at hb1
          by_cases himp : simSpec q b0.sourceText < simSpec q b1.sourceText
          · exact le_trans (le_of_lt himp) hb1le
          · rw [if_neg himp] at hb1
            obtain rfl : b0 = b1 := Option.some.inj hb1
            exact hb1le
        · rw [h0] at hacc''
          obtain rfl : b0 = b1 := Option.some.inj hacc''
          exact hb1le
    · have hstep : selectStep q th acc e = acc :=
        selectStep_not_le q th acc e hsc
      rw [hstep] at hm hb0
      refine ⟨?_, ?_, hb0⟩
      · rcases hm with ⟨hmem, hth'⟩ | hacc'
        · exact Or.inl ⟨List.mem_cons_of_mem _ hmem, hth'⟩
        · exact Or.inr hacc'
      · intro e' he' hth'
        rcases List.mem_cons.mp he' with rfl | he'
        · exact absurd hth' hsc
        · exact hmax e' he' hth'

/-- A failed specification-side selection means no candidate reaches the
threshold. -/
theorem selectFold_none (q : String) (th : ℚ) :
    ∀ (cands : List MemoryEntry) (acc : Option MemoryEntry),
      cands.foldl (selectStep q th) acc = none →
      acc = none ∧ ∀ e ∈ cands, simSpec q e.sourceText < th := by
  intro cands
  induction cands with
  | nil => intro acc h; exact ⟨h, by simp⟩
  | cons e rest ih =>
    intro acc h
    rw [List.foldl_cons] at h
    obtain ⟨hstep, hrest⟩ := ih (selectStep q th acc e) h
    by_cases hsc : th ≤ simSpec q e.sourceText
    · exfalso
      match hacc : acc with
      | none =>
        rw [selectStep_le_none q th e hsc] at hstep
        simp at hstep
      | some b1 =>
        rw [selectStep_le_some q th e b1 hsc] at hstep
        by_cases himp : simSpec q b1.sourceText < simSpec q e.sourceText
        · rw [if_pos himp] at hstep; simp at hstep
        · rw [if_neg himp] at hstep; simp at hstep
    · rw [selectStep_not_le q th acc e hsc] at hstep
      refine ⟨hstep, ?_⟩
      intro e' he'
      rcases List.mem_cons.mp he' with rfl | he'
      · exact not_le.mp hsc
      · exact hrest e' he'

/-! ## Claim theorems: fuzzy lookup -/

/-- A cached row whose stored final text is the empty string. -/
def emptyFinalEntry : MemoryEntry where
  id := "m0"
  sourceText := "hello"
  sourceLang := "en"
  targetLang := "uk"
  finalText := ""

/-- A store holding only `emptyFinalEntry`. -/
def emptyFinalStore : StoreState where
  memory := [emptyFinalEntry]

set_option maxRecDepth 40000 in
/-- C3 counterexample — the claim "returns the final text of the
highest-similarity candidate with similarity ≥ threshold, or not-found when
no candidate meets the threshold" fails: with a single candidate of
similarity 1 ≥ 1/2 whose stored final text is empty, the claim demands that
final text be returned as found, but the scan returns not-found. -/
theorem C3_fuzzy_counterexample :
    selectBest (normalizeText id "hello") (1/2)
        (fuzzyFilter "en" "uk" emptyFinalStore) = some emptyFinalEntry ∧
    (1/2 : ℚ) ≤ simSpec (normalizeText id "hello")
        emptyFinalEntry.sourceText ∧
    fuzzyGetCachedTranslation id emptyFinalStore "hello" "en" "uk" (1/2) =
      ("", false) := by
  refine ⟨by with_unfolding_all decide, by with_unfolding_all decide,
    by with_unfolding_all decide⟩

/-- C3 (amended) — Fuzzy lookup postcondition: not-found when
`threshold ≤ 0` or when the normalized query exceeds 1000 code points;
otherwise the scan over the non-invalidated entries of the language pair
(length pre-filter before the similarity computation, both proved sound
above) returns the final text of the highest-similarity candidate with
similarity ≥ threshold — ties keeping the first candidate found — provided
that final text is non-empty, and not-found when no candidate meets the
threshold or when the selected candidate's final text is the empty string. -/
theorem C3_fuzzyGetCachedTranslation (nfc : String → String)
    (st : StoreState) (sourceText sourceLang targetLang : String) (th : ℚ) :
    (th ≤ 0 →
      fuzzyGetCachedTranslation nfc st sourceText sourceLang targetLang th =
        ("", false)) ∧
    (1000 < (normalizeText nfc sourceText).length →
      fuzzyGetCachedTranslation nfc st sourceText sourceLang targetLang th =
        ("", false)) ∧
    (0 < th → (normalizeText nfc sourceText).length ≤ 1000 →
      fuzzyGetCachedTranslation nfc st sourceText sourceLang targetLang th =
        renderBest (selectBest (normalizeText nfc sourceText) th
          (fuzzyFilter sourceLang targetLang st)) ∧
      (∀ b, selectBest (normalizeText nfc sourceText) th
          (fuzzyFilter sourceLang targetLang st) = some b →
        b ∈ fuzzyFilter sourceLang targetLang st ∧
        th ≤ simSpec (normalizeText nfc sourceText) b.sourceText ∧
        ∀ e ∈ fuzzyFilter sourceLang targetLang st,
          th ≤ simSpec (normalizeText nfc sourceText) e.sourceText →
          simSpec (normalizeText nfc sourceText) e.sourceText ≤
            simSpec (normalizeText nfc sourceText) b.sourceText) ∧
      (selectBest (normalizeText nfc sourceText) th
          (fuzzyFilter sourceLang targetLang st) = none →
        ∀ e ∈ fuzzyFilter sourceLang targetLang st,
          simSpec (normalizeText nfc sourceText) e.sourceText < th)) := by
  refine ⟨?_, ?_, ?_⟩
  · intro h
    rw [fuzzyGetCachedTranslation, if_pos h]
  · intro h
    rw [fuzzyGetCachedTranslation]
    by_cases h0 : th ≤ 0
    · rw [if_pos h0]
    · rw [if_neg h0]
      simp only
      rw [if_pos h]
  · intro hth hlen
    refine ⟨fuzzyGet_eq_selectBest nfc st sourceText sourceLang targetLang
      th hth hlen, ?_, ?_⟩
    · intro b hb
      obtain ⟨hm, hmax, _⟩ := selectFold_some (normalizeText nfc sourceText)
        th (fuzzyFilter sourceLang targetLang st) none b hb
      rcases hm with ⟨hmem, hth'⟩ | habs
      · exact ⟨hmem, hth', hmax⟩
      · cases habs
    · intro hnone
      exact (selectFold_none (normalizeText nfc sourceText) th
        (fuzzyFilter sourceLang targetLang st) none hnone).2

set_option maxRecDepth 40000 in
/-- Witness for C3: the specification's own example — caching
`("Hello world!", en→uk) → "Привіт, світ!"` and querying `"Hello world"`
at threshold `0.85` finds the entry (similarity `11/12 ≈ 0.917`). -/
theorem C3_fuzzyGetCachedTranslation_witness :
    (0 : ℚ) < 85/100 ∧
    (normalizeText id "Hello world").length ≤ 1000 ∧
    fuzzyGetCachedTranslation id
        { memory := [{ id := "m1"
                       sourceText := "Hello world!"
                       sourceLang := "en"
                       targetLang := "uk"
                       finalText := "Привіт, світ!" }] }
        "Hello world" "en" "uk" (85/100) =
      renderBest (selectBest (normalizeText id "Hello world") (85/100)
        (fuzzyFilter "en" "uk"
          { memory := [{ id := "m1"
                         sourceText := "Hello world!"
                         sourceLang := "en"
                         targetLang := "uk"
                         finalText := "Привіт, світ!" }] })) ∧
    fuzzyGetCachedTranslation id
        { memory := [{ id := "m1"
                       sourceText := "Hello world!"
                       sourceLang := "en"
                       targetLang := "uk"
                       finalText := "Привіт, світ!" }] }
        "Hello world" "en" "uk" (85/100) = ("Привіт, світ!", true) :=
  ⟨by with_unfolding_all decide, by decide,
   ((C3_fuzzyGetCachedTranslation id
      { memory := [{ id := "m1"
                     sourceText := "Hello world!"
                     sourceLang := "en"
                     targetLang := "uk"
                     finalText := "Привіт, світ!" }] }
      "Hello world" "en" "uk" (85/100)).2.2
      (by with_unfolding_all decide) (by decide)).1,
   by with_unfolding_all decide⟩

/-- C10 — Implicit edge case: when the fuzzy scan is enabled and the
best-scoring candidate at or above the threshold has the empty string as its
stored final text, the lookup returns not-found rather than that empty
translation — the empty string doubles internally as the no-match
sentinel. -/
theorem C10_fuzzy_empty_sentinel (nfc : String → String) (st : StoreState)
    (sourceText sourceLang targetLang : String) (th : ℚ) (hth : 0 < th)
    (hlen : (normalizeText nfc sourceText).length ≤ 1000) (b : MemoryEntry)
    (hsel : selectBest (normalizeText nfc sourceText) th
      (fuzzyFilter sourceLang targetLang st) = some b)
    (hempty : b.finalText = "") :
    fuzzyGetCachedTranslation nfc st sourceText sourceLang targetLang th =
      ("", false) := by
  rw [fuzzyGet_eq_selectBest nfc st sourceText sourceLang targetLang th hth
    hlen]
  rw [hsel, renderBest, if_pos hempty]

set_option maxRecDepth 40000 in
/-- Witness for C10: the one-entry store whose sole (perfect-similarity)
candidate stores an empty final text. -/
theorem C10_fuzzy_empty_sentinel_witness :
    (0 : ℚ) < 1/2 ∧
    (normalizeText id "hello").length ≤ 1000 ∧
    selectBest (normalizeText id "hello") (1/2)
        (fuzzyFilter "en" "uk" emptyFinalStore) = some emptyFinalEntry ∧
    fuzzyGetCachedTranslation id emptyFinalStore "hello" "en" "uk" (1/2) =
      ("", false) :=
  ⟨by with_unfolding_all decide, by decide, by with_unfolding_all decide,
   C10_fuzzy_empty_sentinel id emptyFinalStore "hello" "en" "uk" (1/2)
     (by with_unfolding_all decide) (by decide) emptyFinalEntry
     (by with_unfolding_all decide) (by decide)⟩

/-! ## Target-language validator (`internal/validator`)

The lingua-go detector is an external collaborator: `DetectISO` is modelled
as a function `String → Option String` (`none` = cannot determine).
`strings.EqualFold` is modelled as simple case folding via `toLower`. -/

/-- Go `validator.minValidationLength`: minimum rune count for detection. -/
def minValidationLength : Nat := 20

/-- Go `strings.EqualFold` (simple Unicode case folding), modelled as
rune-wise lower-casing. -/
def eqFold (a b : String) : Bool :=
  a.data.map Char.toLower == b.data.map Char.toLower

/-- Go `validator.IsValid`, mirroring the Go control flow: empty target
language passes; empty trimmed text fails; short text passes; undetermined
language passes; detected language is compared case-insensitively. -/
def isValid (detect : String → Option String)
    (translatedText targetLang : String) : Bool × Option String :=
  if targetLang = "" then (true, none)
  else
    let text := trimString translatedText
    if text = "" then (false, some "translation is empty")
    else if text.length < minValidationLength then (true, none)
    else
      match detect text with
      | none => (true, none)
      | some d =>
        if eqFold d targetLang then (true, none)
        else (false,
          some ("expected " ++ targetLang ++ " but detected " ++ d))

/-! ## Claim theorems: validator -/

/-- C6 counterexample — the claim requires `(false, error)` whenever the
translated text is empty or whitespace-only, but with an empty `targetLang`
the empty-target check fires first and the call returns `(true, nil)`. -/
theorem C6_isValid_counterexample :
    trimString "" = "" ∧ isValid (fun _ => none) "" "" = (true, none) :=
  ⟨rfl, rfl⟩

/-- C6 (amended) — Validator contract in the code's check order: `(true,
nil)` when `targetLang` is empty; for a non-empty `targetLang`: `(false,
error)` when the translated text trims to empty, `(true, nil)` when the
trimmed text is shorter than the 20-rune detection minimum or the detector
cannot determine a language or the detected language matches `targetLang`
case-insensitively, and `(false, error)` when a confidently detected
language differs from `targetLang` under case-insensitive comparison. -/
theorem C6_isValid_contract (detect : String → Option String)
    (translatedText targetLang : String) :
    (targetLang = "" →
      isValid detect translatedText targetLang = (true, none)) ∧
    (targetLang ≠ "" → trimString translatedText = "" →
      (isValid detect translatedText targetLang).1 = false ∧
      (isValid detect translatedText targetLang).2 ≠ none) ∧
    (targetLang ≠ "" → trimString translatedText ≠ "" →
      (trimString translatedText).length < minValidationLength →
      isValid detect translatedText targetLang = (true, none)) ∧
    (targetLang ≠ "" → trimString translatedText ≠ "" →
      minValidationLength ≤ (trimString translatedText).length →
      detect (trimString translatedText) = none →
      isValid detect translatedText targetLang = (true, none)) ∧
    (∀ d, targetLang ≠ "" → trimString translatedText ≠ "" →
      minValidationLength ≤ (trimString translatedText).length →
      detect (trimString translatedText) = some d → eqFold d targetLang →
      isValid detect translatedText targetLang = (true, none)) ∧
    (∀ d, targetLang ≠ "" → trimString translatedText ≠ "" →
      minValidationLength ≤ (trimString translatedText).length →
      detect (trimString translatedText) = some d →
      ¬ eqFold d targetLang →
      (isValid detect translatedText targetLang).1 = false ∧
      (isValid detect translatedText targetLang).2 ≠ none) := by
  refine ⟨?_, ?_, ?_, ?_, ?_, ?_⟩
  · intro h
    rw [isValid, if_pos h]
  · intro htl htrim
    rw [isValid, if_neg htl]
    simp only [htrim, if_pos rfl]
    exact ⟨rfl, by simp⟩
  · intro htl htrim hshort
    rw [isValid, if_neg htl]
    simp only [if_neg htrim]
    rw [if_pos hshort]
  · intro htl htrim hlong hdet
    rw [isValid, if_neg htl]
    simp only [if_neg htrim]
    rw [if_neg (not_lt.mpr hlong), hdet]
  · intro d htl htrim hlong hdet heq
    rw [isValid, if_neg htl]
    simp only [if_neg htrim]
    rw [if_neg (not_lt.mpr hlong), hdet]
    simp only [heq, if_pos]
  · intro d htl htrim hlong hdet heq
    rw [isValid, if_neg htl]
    simp only [if_neg htrim]
    rw [if_neg (not_lt.mpr hlong), hdet]
    have heq2 : eqFold d targetLang = false := by simpa using heq
    simp only [heq2, Bool.false_eq_true, if_false]
    constructor <;> simp

/-- Witness for C6: whitespace-only text with a non-empty target fails;
a long mismatching detection fails; a matching detection passes
case-insensitively. -/
theorem C6_isValid_contract_witness :
    (("uk" : String) ≠ "" ∧ trimString "   " = "" ∧
      (isValid (fun _ => none) "   " "uk").1 = false) ∧
    ((isValid (fun _ => some "EN")
        "This text is long enough for detection." "en").1 = true) :=
  ⟨⟨by decide, by decide,
    ((C6_isValid_contract (fun _ => none) "   " "uk").2.1 (by decide)
      (by decide)).1⟩,
   by
    rw [((C6_isValid_contract (fun _ => some "EN")
      "This text is long enough for detection." "en").2.2.2.2.1 "EN"
      (by decide) (by decide) (by decide) rfl (by decide))]⟩

/-! ### chunker.Chunk and findSplit

The chunker works on rune slices; Go returns byte offsets, but every
returned offset is a rune boundary (the searched patterns `\n\n` and
`\r\n\r\n` consist of one-byte runes, and the punctuation/whitespace
cases convert `runes[:i+1]` / `runes[:i]` back to the corresponding
byte offset), so indexing by rune position is an exact model. -/

/-- Go `chunker.lastIndex`: the last index at which `pat` occurs in `s`
(`none` for Go's `-1`). -/
def lastIndex (s pat : List Char) : Option Nat :=
  ((List.range s.length).filter
    (fun i => (s.drop i).take pat.length == pat)).getLast?

/-- The paragraph-boundary checks of `findSplit`:
`if idx := lastIndex(candidate, pat); idx > 0 { return idx + skip }`. -/
def paraSplit (candidate pat : List Char) (skip : Nat) : Option Nat :=
  (lastIndex candidate pat).bind
    (fun idx => if 0 < idx then some (idx + skip) else none)

/-- Sentence-ending punctuation: `r == '.' || r == '!' || r == '?'`. -/
def isSentenceEnd (c : Char) : Bool := c == '.' || c == '!' || c == '?'

/-- The condition of `findSplit`'s sentence-punctuation loop at index `i`. -/
def punctPred (candidate : List Char) (i : Nat) : Bool :=
  decide (0 < i) && isSentenceEnd (candidate.getD i ' ') &&
    decide (i + 1 < candidate.length) && goIsSpace (candidate.getD (i + 1) ' ')

/-- Go `findSplit`'s backwards sentence-punctuation scan; on a hit at `i` the
split point is after the punctuation (`runes[:i+1]`). -/
def punctSplit (candidate : List Char) : Option Nat :=
  ((List.range candidate.length).reverse.find? (punctPred candidate)).map
    (fun i => i + 1)

/-- The condition of `findSplit`'s whitespace loop at index `i`. -/
def wsPred (candidate : List Char) (i : Nat) : Bool :=
  decide (0 < i) && goIsSpace (candidate.getD i ' ')

/-- Go `findSplit`'s backwards whitespace scan; a hit at `i` splits before the
whitespace (`runes[:i]`). -/
def wsSplit (candidate : List Char) : Option Nat :=
  (List.range candidate.length).reverse.find? (wsPred candidate)

/-- The boundary-preference chain of `findSplit` over the candidate
prefix: paragraph (`\n\n`, then `\r\n\r\n`), then sentence punctuation,
then whitespace. -/
def splitChoice (candidate : List Char) : Option Nat :=
  (paraSplit candidate ['\n', '\n'] 2).orElse fun _ =>
    (paraSplit candidate ['\r', '\n', '\r', '\n'] 4).orElse fun _ =>
      (punctSplit candidate).orElse fun _ => wsSplit candidate

/-- Go `chunker.findSplit`: the split position for a text longer than
`maxChars`, searched backwards inside the first `maxChars` runes; falls
back to a hard cut at `maxChars` runes. -/
def findSplit (text : List Char) (maxChars : Nat) : Nat :=
  if text.length ≤ maxChars then text.length
  else (splitChoice (text.take maxChars)).getD (text.take maxChars).length

/-- The `for len([]rune(remaining)) > maxChars` loop of `chunker.Chunk`
plus the final-remainder append, with explicit fuel.  Every loop
iteration strictly shrinks `remaining` (the split point is at least 1),
so any fuel of at least `remaining.length` runs the loop to completion;
the fuel-exhausted branch coincides with the loop-exit branch on the
empty list, the only list reachable at fuel 0. -/
def chunkAux (maxChars : Nat) : Nat → List Char → List (List Char)
  | 0, remaining =>
    if trimChars remaining = [] then [] else [trimChars remaining]
  | fuel + 1, remaining =>
    if remaining.length ≤ maxChars then
      if trimChars remaining = [] then [] else [trimChars remaining]
    else
      (if trimChars (remaining.take (findSplit remaining maxChars)) = []
        then []
        else [trimChars (remaining.take (findSplit remaining maxChars))]) ++
        chunkAux maxChars fuel
          (trimChars (remaining.drop (findSplit remaining maxChars)))

/-- Go `chunker.Chunk` on rune lists (Go's `maxChars <= 0` becomes
`maxChars = 0` on ℕ): texts that fit are returned whole, otherwise the
split loop runs. -/
def Chunk (text : List Char) (maxChars : Nat) : List (List Char) :=
  if maxChars = 0 ∨ text.length ≤ maxChars then [text]
  else chunkAux maxChars text.length text

/-- Go `strings.Fields`: the maximal runs of non-whitespace characters, via
an accumulator holding the current word reversed. -/
def tokensAux : List Char → List Char → List (List Char)
  | [], acc => if acc = [] then [] else [acc.reverse]
  | c :: rest, acc =>
    if goIsSpace c then
      if acc = [] then tokensAux rest [] else acc.reverse :: tokensAux rest []
    else tokensAux rest (c :: acc)

/-- The whitespace-delimited tokens of a rune list (`strings.Fields`). -/
def tokens (l : List Char) : List (List Char) := tokensAux l []

/-- Go `strings.Join(chunks, " ")` on rune lists. -/
def joinSpace : List (List Char) → List Char
  | [] => []
  | [x] => x
  | x :: y :: tl => x ++ ' ' :: joinSpace (y :: tl)

/-- Occurrence test: `pat` occurs contiguously inside `l` (`strings.Contains`). -/
def containsSeq (l pat : List Char) : Bool :=
  (List.range (l.length + 1)).any (fun i => (l.drop i).take pat.length == pat)

/-- The split `a ++ b` does not cut through a token: either the right
part starts with whitespace or the left part ends with whitespace. -/
def cleanCut (a b : List Char) : Prop :=
  (∃ c l, b = c :: l ∧ goIsSpace c = true) ∨
    (∃ l s, a = l ++ [s] ∧ goIsSpace s = true)

/-! ### Generic list-index helpers -/

theorem mem_of_getLast?_eq {α : Type} :
    ∀ {l : List α} {a : α}, l.getLast? = some a → a ∈ l := by
  intro l
  induction l with
  | nil => intro a h; simp at h
  | cons x xs ih =>
    intro a h
    cases xs with
    | nil =>
      simp only [List.getLast?_singleton] at h
      rw [Option.some.inj h]
      exact List.mem_singleton_self a
    | cons y ys =>
      rw [List.getLast?_cons_cons] at h
      exact List.mem_cons_of_mem x (ih h)

theorem getD_drop : ∀ (l : List Char) (i j : Nat),
    (l.drop i).getD j ' ' = l.getD (i + j) ' ' := by
  intro l
  induction l with
  | nil => intro i j; simp
  | cons x xs ih =>
    intro i j
    cases i with
    | zero => simp
    | succ i' =>
      rw [List.drop_succ_cons, ih i' j]
      have h : i' + 1 + j = (i' + j) + 1 := by omega
      rw [h, List.getD_cons_succ]

theorem getD_take : ∀ (l : List Char) (n j : Nat), j < n →
    (l.take n).getD j ' ' = l.getD j ' ' := by
  intro l
  induction l with
  | nil => intro n j _; simp
  | cons x xs ih =>
    intro n j h
    cases n with
    | zero => omega
    | succ n' =>
      rw [List.take_succ_cons]
      cases j with
      | zero => rfl
      | succ j' =>
        rw [List.getD_cons_succ, List.getD_cons_succ]
        exact ih n' j' (by omega)

theorem head?_drop_getD : ∀ (l : List Char) (k : Nat), k < l.length →
    (l.drop k).head? = some (l.getD k ' ') := by
  intro l
  induction l with
  | nil => intro k hk; simp at hk
  | cons x xs ih =>
    intro k hk
    cases k with
    | zero => rfl
    | succ k' =>
      rw [List.drop_succ_cons, List.getD_cons_succ]
      exact ih k' (by simpa using hk)

theorem take_eq_append_getD : ∀ (l : List Char) (k : Nat), k < l.length →
    l.take (k + 1) = l.take k ++ [l.getD k ' '] := by
  intro l
  induction l with
  | nil => intro k hk; simp at hk
  | cons x xs ih =>
    intro k hk
    cases k with
    | zero => rfl
    | succ k' =>
      rw [List.take_succ_cons, List.take_succ_cons, List.getD_cons_succ]
      rw [ih k' (by simpa using hk)]
      rfl

theorem drop_append_length {α : Type} : ∀ (w r : List α) (i : Nat),
    (w ++ r).drop (w.length + i) = r.drop i := by
  intro w r
  induction w with
  | nil => intro i; simp
  | cons x xs ih =>
    intro i
    rw [List.cons_append, List.length_cons]
    have h : xs.length + 1 + i = (xs.length + i) + 1 := by omega
    rw [h, List.drop_succ_cons]
    exact ih i

theorem occurs_bound_getD (l pat : List Char) (idx j : Nat) (hj : j < pat.length)
    (hocc : (l.drop idx).take pat.length = pat) :
    idx + pat.length ≤ l.length ∧ l.getD (idx + j) ' ' = pat.getD j ' ' := by
  have hlen : ((l.drop idx).take pat.length).length = pat.length := by rw [hocc]
  rw [List.length_take, List.length_drop] at hlen
  have h2 : pat.length ≤ l.length - idx := by
    rw [← hlen]
    exact Nat.min_le_right _ _
  refine ⟨by omega, ?_⟩
  have h1 : pat.getD j ' ' = ((l.drop idx).take pat.length).getD j ' ' := by
    rw [hocc]
  rw [h1, getD_take _ _ _ hj, getD_drop]

theorem takeWhile_length_ge (p : Char → Bool) : ∀ (n : Nat) (l : List Char),
    n ≤ l.length → (∀ i, i < n → p (l.getD i ' ') = true) →
    n ≤ (l.takeWhile p).length := by
  intro n
  induction n with
  | zero => intro l _ _; exact Nat.zero_le _
  | succ m ih =>
    intro l hn h
    cases l with
    | nil => simp at hn
    | cons x xs =>
      have hx : p x = true := by
        have := h 0 (by omega)
        simpa using this
      rw [List.takeWhile_cons_of_pos hx, List.length_cons]
      have hm := ih xs (by simpa using hn) (fun i hi => by
        have := h (i + 1) (by omega)
        simpa using this)
      omega

theorem takeWhile_stop (p : Char → Bool) : ∀ (l : List Char) (n : Nat),
    (l.takeWhile p).length = n → n < l.length → p (l.getD n ' ') = false := by
  intro l
  induction l with
  | nil => intro n _ hlt; simp at hlt
  | cons x xs ih =>
    intro n h hlt
    by_cases hx : p x = true
    · rw [List.takeWhile_cons_of_pos hx, List.length_cons] at h
      cases n with
      | zero => omega
      | succ m =>
        have hm : (xs.takeWhile p).length = m := by omega
        have hlt' : m < xs.length := by simpa using hlt
        have := ih m hm hlt'
        simpa using this
    · rw [List.takeWhile_cons_of_neg (by simpa using hx)] at h
      have hn : n = 0 := by simpa using h.symm
      subst hn
      simpa using hx

theorem dropWhile_head_not {α : Type} (p : α → Bool) (d : α) :
    ∀ (l : List α) (c : α), (l.dropWhile p).head? = some c → p c = false := by
  intro l
  induction l with
  | nil => intro c h; simp at h
  | cons x xs ih =>
    intro c h
    by_cases hx : p x = true
    · rw [List.dropWhile_cons_of_pos hx] at h
      exact ih c h
    · rw [List.dropWhile_cons_of_neg (by simpa using hx)] at h
      have hxc : x = c := by simpa using h
      rw [← hxc]
      simpa using hx

/-! ### Tokens: structure lemmas -/

theorem tokensAux_cons_space {c : Char} (h : goIsSpace c = true)
    (rest acc : List Char) :
    tokensAux (c :: rest) acc =
      if acc = [] then tokensAux rest []
      else acc.reverse :: tokensAux rest [] := by
  simp [tokensAux, h]

theorem tokensAux_cons_nonspace {c : Char} (h : goIsSpace c = false)
    (rest acc : List Char) :
    tokensAux (c :: rest) acc = tokensAux rest (c :: acc) := by
  simp [tokensAux, h]

theorem tokens_cons_space {c : Char} (h : goIsSpace c = true) (l : List Char) :
    tokens (c :: l) = tokens l := by
  rw [tokens, tokensAux_cons_space h, if_pos rfl]
  rfl

theorem tokensAux_append_space (b : List Char)
    (hb : ∀ c, b.head? = some c → goIsSpace c = true) :
    ∀ (a acc : List Char),
      tokensAux (a ++ b) acc = tokensAux a acc ++ tokens b := by
  intro a
  induction a with
  | nil =>
    intro acc
    cases b with
    | nil => simp [tokens, tokensAux]
    | cons c rest =>
      have hc : goIsSpace c = true := hb c rfl
      rw [List.nil_append, tokensAux_cons_space hc]
      rw [tokens, tokensAux_cons_space hc, if_pos rfl]
      by_cases hacc : acc = []
      · rw [if_pos hacc, tokensAux, if_pos hacc, List.nil_append]
      · rw [if_neg hacc, tokensAux, if_neg hacc]
        rfl
  | cons x a ih =>
    intro acc
    by_cases hx : goIsSpace x = true
    · rw [List.cons_append, tokensAux_cons_space hx, tokensAux_cons_space hx]
      by_cases hacc : acc = []
      · rw [if_pos hacc, if_pos hacc, ih]
      · rw [if_neg hacc, if_neg hacc, ih]
        rfl
    · have hx' : goIsSpace x = false := by simpa using hx
      rw [List.cons_append, tokensAux_cons_nonspace hx',
        tokensAux_cons_nonspace hx', ih]

theorem tokens_append_clean (a b : List Char) (h : cleanCut a b) :
    tokens (a ++ b) = tokens a ++ tokens b := by
  rcases h with ⟨c, l, rfl, hc⟩ | ⟨l, s, rfl, hs⟩
  · have hb : ∀ d, (c :: l).head? = some d → goIsSpace d = true := by
      intro d hd
      have hcd : c = d := by simpa using hd
      rw [← hcd]
      exact hc
    exact tokensAux_append_space (c :: l) hb a []
  · have hb1 : ∀ d, (s :: b).head? = some d → goIsSpace d = true := by
      intro d hd
      have hsd : s = d := by simpa using hd
      rw [← hsd]
      exact hs
    have hb2 : ∀ d, ([s] : List Char).head? = some d → goIsSpace d = true := by
      intro d hd
      have hsd : s = d := by simpa using hd
      rw [← hsd]
      exact hs
    have h1 : (l ++ [s]) ++ b = l ++ (s :: b) := by
      rw [List.append_assoc]
      rfl
    rw [h1]
    have h4 : tokens (l ++ (s :: b)) = tokens l ++ tokens (s :: b) :=
      tokensAux_append_space (s :: b) hb1 l []
    rw [h4, tokens_cons_space hs]
    have h2 : tokens (l ++ [s]) = tokens l ++ tokens [s] :=
      tokensAux_append_space [s] hb2 l []
    have h3 : tokens [s] = [] := by
      rw [tokens_cons_space hs]
      rfl
    rw [h2, h3, List.append_nil]

theorem tokens_all_space : ∀ l : List Char,
    (∀ c ∈ l, goIsSpace c = true) → tokens l = [] := by
  intro l
  induction l with
  | nil => intro _; rfl
  | cons c rest ih =>
    intro h
    rw [tokens_cons_space (h c (List.mem_cons_self c rest))]
    exact ih (fun d hd => h d (List.mem_cons_of_mem c hd))

theorem tokens_append_allspace (a sfx : List Char)
    (h : ∀ c ∈ sfx, goIsSpace c = true) : tokens (a ++ sfx) = tokens a := by
  cases sfx with
  | nil => rw [List.append_nil]
  | cons c tl =>
    rw [tokens_append_clean a (c :: tl)
      (Or.inl ⟨c, tl, rfl, h c (List.mem_cons_self c tl)⟩)]
    rw [tokens_all_space (c :: tl) h, List.append_nil]

theorem tokens_dropWhile_space (l : List Char) :
    tokens (l.dropWhile goIsSpace) = tokens l := by
  induction l with
  | nil => rfl
  | cons c rest ih =>
    by_cases hc : goIsSpace c = true
    · rw [List.dropWhile_cons_of_pos hc, ih, tokens_cons_space hc]
    · rw [List.dropWhile_cons_of_neg (by simpa using hc)]

theorem trimChars_decomp (l : List Char) :
    l.dropWhile goIsSpace =
      trimChars l ++
        ((l.dropWhile goIsSpace).reverse.takeWhile goIsSpace).reverse := by
  rw [trimChars, ← List.reverse_append, List.takeWhile_append_dropWhile,
    List.reverse_reverse]

theorem tokens_trimChars (l : List Char) :
    tokens (trimChars l) = tokens l := by
  have hsfx : ∀ c ∈ ((l.dropWhile goIsSpace).reverse.takeWhile goIsSpace).reverse,
      goIsSpace c = true := by
    intro c hc
    rw [List.mem_reverse] at hc
    exact List.mem_takeWhile_imp hc
  rw [← tokens_dropWhile_space l, trimChars_decomp l,
    tokens_append_allspace _ _ hsfx]

theorem trimChars_head (l : List Char) (c : Char)
    (h : (trimChars l).head? = some c) : goIsSpace c = false := by
  apply dropWhile_head_not goIsSpace ' ' l c
  rw [trimChars_decomp l]
  cases htc : trimChars l with
  | nil => rw [htc] at h; simp at h
  | cons x tl =>
    rw [htc] at h
    rw [List.cons_append]
    exact h

theorem length_dropWhile_le' (p : Char → Bool) (m : List Char) :
    (m.dropWhile p).length ≤ m.length := by
  induction m with
  | nil => simp
  | cons x xs ih =>
    by_cases hx : p x = true
    · rw [List.dropWhile_cons_of_pos hx, List.length_cons]
      omega
    · rw [List.dropWhile_cons_of_neg (by simpa using hx)]

theorem trimChars_length_le (l : List Char) :
    (trimChars l).length ≤ l.length := by
  rw [trimChars, List.length_reverse]
  calc ((l.dropWhile goIsSpace).reverse.dropWhile goIsSpace).length
      ≤ (l.dropWhile goIsSpace).reverse.length := length_dropWhile_le' _ _
    _ = (l.dropWhile goIsSpace).length := List.length_reverse _
    _ ≤ l.length := length_dropWhile_le' _ _

/-! ### Tokens of a list decompose at the first word -/

theorem tokensAux_word : ∀ (w rest acc : List Char),
    (∀ c ∈ w, goIsSpace c = false) →
    tokensAux (w ++ rest) acc = tokensAux rest (w.reverse ++ acc) := by
  intro w
  induction w with
  | nil => intro rest acc _; rfl
  | cons x w ih =>
    intro rest acc h
    rw [List.cons_append,
      tokensAux_cons_nonspace (h x (List.mem_cons_self x w))]
    rw [ih rest (x :: acc) (fun c hc => h c (List.mem_cons_of_mem x hc))]
    simp

theorem tokensAux_flush (r acc : List Char) (hacc : acc ≠ [])
    (hr : ∀ c, r.head? = some c → goIsSpace c = true) :
    tokensAux r acc = acc.reverse :: tokens r := by
  cases r with
  | nil => rw [tokensAux, if_neg hacc]; rfl
  | cons c rest =>
    have hc := hr c rfl
    rw [tokensAux_cons_space hc, if_neg hacc, tokens_cons_space hc]
    rfl

theorem tokens_head_word (l : List Char) (c : Char) (hhead : l.head? = some c)
    (hc : goIsSpace c = false) :
    tokens l = (l.takeWhile (fun d => !goIsSpace d)) ::
      tokens (l.dropWhile (fun d => !goIsSpace d)) := by
  obtain ⟨l', rfl⟩ : ∃ l', l = c :: l' := by
    cases l with
    | nil => simp at hhead
    | cons x xs =>
      have hxc : x = c := by simpa using hhead
      exact ⟨xs, by rw [hxc]⟩
  have hw : (c :: l').takeWhile (fun d => !goIsSpace d) =
      c :: l'.takeWhile (fun d => !goIsSpace d) :=
    List.takeWhile_cons_of_pos (by simp [hc])
  have hwne : (c :: l').takeWhile (fun d => !goIsSpace d) ≠ [] := by
    rw [hw]
    simp
  have hsplit := List.takeWhile_append_dropWhile (fun d => !goIsSpace d) (c :: l')
  have hwns : ∀ d ∈ (c :: l').takeWhile (fun d => !goIsSpace d),
      goIsSpace d = false := by
    intro d hd
    have := List.mem_takeWhile_imp hd
    simpa using this
  have hrsp : ∀ d, ((c :: l').dropWhile (fun d => !goIsSpace d)).head? = some d →
      goIsSpace d = true := by
    intro d hd
    have := dropWhile_head_not (fun d => !goIsSpace d) ' ' (c :: l') d hd
    simpa using this
  conv_lhs => rw [tokens, ← hsplit]
  rw [tokensAux_word _ _ [] hwns, List.append_nil]
  rw [tokensAux_flush _ _ (by simpa using hwne) hrsp]
  rw [List.reverse_reverse]

/-! ### Token occurrence inside the carrying list -/

def occursAt (l pat : List Char) (i : Nat) : Prop :=
  (l.drop i).take pat.length = pat

theorem containsSeq_of_occursAt {l pat : List Char} {i : Nat}
    (hle : i ≤ l.length) (h : occursAt l pat i) : containsSeq l pat = true := by
  rw [containsSeq, List.any_eq_true]
  refine ⟨i, List.mem_range.mpr (by omega), ?_⟩
  simpa [occursAt] using h

theorem tokens_occursAt : ∀ (n : Nat) (l t : List Char), l.length ≤ n →
    t ∈ tokens l → ∃ i, i ≤ l.length ∧ occursAt l t i := by
  intro n
  induction n with
  | zero =>
    intro l t hl ht
    have hnil : l = [] := List.length_eq_zero.mp (Nat.le_zero.mp hl)
    subst hnil
    simp [tokens, tokensAux] at ht
  | succ n ih =>
    intro l t hl ht
    cases l with
    | nil => simp [tokens, tokensAux] at ht
    | cons c l' =>
      by_cases hc : goIsSpace c = true
      · rw [tokens_cons_space hc] at ht
        have hlen : l'.length ≤ n := by
          rw [List.length_cons] at hl
          omega
        obtain ⟨i, hi, hocc⟩ := ih l' t hlen ht
        refine ⟨i + 1, ?_, ?_⟩
        · rw [List.length_cons]
          omega
        · rw [occursAt, List.drop_succ_cons]
          exact hocc
      · have hc' : goIsSpace c = false := by simpa using hc
        rw [tokens_head_word (c :: l') c rfl hc'] at ht
        obtain ⟨w, hw⟩ : ∃ w, w = (c :: l').takeWhile (fun d => !goIsSpace d) :=
          ⟨_, rfl⟩
        obtain ⟨r, hr⟩ : ∃ r, r = (c :: l').dropWhile (fun d => !goIsSpace d) :=
          ⟨_, rfl⟩
        rw [← hw, ← hr] at ht
        have hsplit : w ++ r = c :: l' := by
          rw [hw, hr]
          exact List.takeWhile_append_dropWhile _ _
        have hwne : w ≠ [] := by
          rw [hw, List.takeWhile_cons_of_pos (by simp [hc'])]
          simp
        have hlensum : w.length + r.length = l'.length + 1 := by
          rw [← List.length_append, hsplit, List.length_cons]
        have hwpos : 1 ≤ w.length := by
          cases w with
          | nil => exact absurd rfl hwne
          | cons z zs => simp
        rcases List.mem_cons.mp ht with rfl | hmem
        · refine ⟨0, Nat.zero_le _, ?_⟩
          rw [occursAt, List.drop_zero, ← hsplit]
          exact List.take_left _ _
        · have hrlen : r.length ≤ n := by
            rw [List.length_cons] at hl
            omega
          obtain ⟨i, hi, hocc⟩ := ih r t hrlen hmem
          refine ⟨w.length + i, ?_, ?_⟩
          · rw [List.length_cons]
            omega
          · rw [occursAt, ← hsplit, drop_append_length]
            exact hocc

theorem tokens_containsSeq (l t : List Char) (ht : t ∈ tokens l) :
    containsSeq l t = true := by
  obtain ⟨i, hi, hocc⟩ := tokens_occursAt l.length l t le_rfl ht
  exact containsSeq_of_occursAt hi hocc

/-! ### Soundness of the split finders -/

theorem paraSplit_some (cand pat : List Char) (skip n : Nat)
    (h : paraSplit cand pat skip = some n) :
    ∃ idx, n = idx + skip ∧ 0 < idx ∧
      (cand.drop idx).take pat.length = pat := by
  rw [paraSplit, Option.bind_eq_some] at h
  obtain ⟨idx, hl, hf⟩ := h
  by_cases hpos : 0 < idx
  · rw [if_pos hpos] at hf
    refine ⟨idx, (Option.some.inj hf).symm, hpos, ?_⟩
    rw [lastIndex] at hl
    have hmem := mem_of_getLast?_eq hl
    have hfl := List.mem_filter.mp hmem
    simpa using hfl.2
  · rw [if_neg hpos] at hf
    simp at hf

theorem punctSplit_some (cand : List Char) (n : Nat)
    (h : punctSplit cand = some n) :
    ∃ i, n = i + 1 ∧ 0 < i ∧ i + 1 < cand.length ∧
      goIsSpace (cand.getD (i + 1) ' ') = true := by
  rw [punctSplit] at h
  cases hf : (List.range cand.length).reverse.find? (punctPred cand) with
  | none => rw [hf] at h; simp at h
  | some i =>
    rw [hf] at h
    have hn : i + 1 = n := by simpa using h
    have hpred := List.find?_some hf
    rw [punctPred] at hpred
    simp only [Bool.and_eq_true, decide_eq_true_eq] at hpred
    exact ⟨i, hn.symm, hpred.1.1.1, hpred.1.2, hpred.2⟩

theorem wsSplit_some (cand : List Char) (i : Nat) (h : wsSplit cand = some i) :
    0 < i ∧ i < cand.length ∧ goIsSpace (cand.getD i ' ') = true := by
  rw [wsSplit] at h
  have hmem := List.mem_of_find?_eq_some h
  have hpred := List.find?_some h
  rw [List.mem_reverse, List.mem_range] at hmem
  rw [wsPred] at hpred
  simp only [Bool.and_eq_true, decide_eq_true_eq] at hpred
  exact ⟨hpred.1, hmem, hpred.2⟩

theorem wsSplit_none (cand : List Char) (h : wsSplit cand = none) :
    ∀ i, 0 < i → i < cand.length → goIsSpace (cand.getD i ' ') = false := by
  intro i h1 h2
  rw [wsSplit, List.find?_eq_none] at h
  have := h i (by rw [List.mem_reverse, List.mem_range]; exact h2)
  rw [wsPred] at this
  simpa [h1] using this

/-! ### Cut shapes -/

theorem cleanCut_of_drop_space (remaining : List Char) (k : Nat)
    (hk : k < remaining.length)
    (hsp : goIsSpace (remaining.getD k ' ') = true) :
    cleanCut (remaining.take k) (remaining.drop k) := by
  left
  have hh := head?_drop_getD remaining k hk
  cases hd : remaining.drop k with
  | nil => rw [hd] at hh; simp at hh
  | cons x xs =>
    rw [hd] at hh
    have hx : x = remaining.getD k ' ' := by simpa using hh
    exact ⟨x, xs, rfl, by rw [hx]; exact hsp⟩

theorem cleanCut_of_take_space (remaining b : List Char) (k : Nat)
    (hk : k < remaining.length)
    (hsp : goIsSpace (remaining.getD k ' ') = true) :
    cleanCut (remaining.take (k + 1)) b :=
  Or.inr ⟨remaining.take k, remaining.getD k ' ',
    take_eq_append_getD remaining k hk, hsp⟩

theorem some_orElse_eq (a : Nat) (f : Unit → Option Nat) :
    (some a).orElse f = some a := rfl

theorem none_orElse_eq (f : Unit → Option Nat) :
    (none : Option Nat).orElse f = f () := rfl

/-- The split point chosen by `findSplit` for an over-long text is at
least 1, at most `maxChars`, and — provided the text starts with a
non-space character and every token fits in `maxChars` — does not cut
through a token. -/
theorem findSplit_clean (remaining : List Char) (maxChars : Nat)
    (hm : 0 < maxChars) (hlong : maxChars < remaining.length)
    (hhead : ∀ c, remaining.head? = some c → goIsSpace c = false)
    (hbound : ∀ t ∈ tokens remaining, t.length ≤ maxChars) :
    1 ≤ findSplit remaining maxChars ∧
      findSplit remaining maxChars ≤ maxChars ∧
      cleanCut (remaining.take (findSplit remaining maxChars))
        (remaining.drop (findSplit remaining maxChars)) := by
  have hclen : (remaining.take maxChars).length = maxChars := by
    rw [List.length_take]
    omega
  have hsq : findSplit remaining maxChars =
      (splitChoice (remaining.take maxChars)).getD
        (remaining.take maxChars).length := by
    rw [findSplit, if_neg (by omega : ¬ remaining.length ≤ maxChars)]
  rw [hsq, splitChoice]
  cases hp1 : paraSplit (remaining.take maxChars) ['\n', '\n'] 2 with
  | some n =>
    rw [some_orElse_eq, Option.getD_some]
    obtain ⟨idx, rfl, hpos, hocc⟩ := paraSplit_some _ _ _ _ hp1
    obtain ⟨hbnd, hchar⟩ := occurs_bound_getD _ _ idx 1 (by simp) hocc
    rw [hclen] at hbnd
    have hbnd2 : idx + 2 ≤ maxChars := by simpa using hbnd
    have hi1 : idx + 1 < remaining.length := by omega
    have hsp : goIsSpace (remaining.getD (idx + 1) ' ') = true := by
      have hgd : remaining.getD (idx + 1) ' ' =
          (remaining.take maxChars).getD (idx + 1) ' ' :=
        (getD_take remaining maxChars (idx + 1) (by omega)).symm
      rw [hgd, hchar]
      rfl
    refine ⟨by omega, by omega, ?_⟩
    have h2 : idx + 2 = (idx + 1) + 1 := by omega
    rw [h2]
    exact cleanCut_of_take_space remaining _ (idx + 1) hi1 hsp
  | none =>
  rw [none_orElse_eq]
  cases hp2 : paraSplit (remaining.take maxChars) ['\r', '\n', '\r', '\n'] 4 with
  | some n =>
    rw [some_orElse_eq, Option.getD_some]
    obtain ⟨idx, rfl, hpos, hocc⟩ := paraSplit_some _ _ _ _ hp2
    obtain ⟨hbnd, hchar⟩ := occurs_bound_getD _ _ idx 3 (by simp) hocc
    rw [hclen] at hbnd
    have hbnd2 : idx + 4 ≤ maxChars := by simpa using hbnd
    have hi3 : idx + 3 < remaining.length := by omega
    have hsp : goIsSpace (remaining.getD (idx + 3) ' ') = true := by
      have hgd : remaining.getD (idx + 3) ' ' =
          (remaining.take maxChars).getD (idx + 3) ' ' :=
        (getD_take remaining maxChars (idx + 3) (by omega)).symm
      rw [hgd, hchar]
      rfl
    refine ⟨by omega, by omega, ?_⟩
    have h4 : idx + 4 = (idx + 3) + 1 := by omega
    rw [h4]
    exact cleanCut_of_take_space remaining _ (idx + 3) hi3 hsp
  | none =>
  rw [none_orElse_eq]
  cases hp3 : punctSplit (remaining.take maxChars) with
  | some n =>
    rw [some_orElse_eq, Option.getD_some]
    obtain ⟨i, rfl, hpos, hlt, hsp0⟩ := punctSplit_some _ _ hp3
    rw [hclen] at hlt
    have hi1 : i + 1 < remaining.length := by omega
    have hsp : goIsSpace (remaining.getD (i + 1) ' ') = true := by
      have hgd : remaining.getD (i + 1) ' ' =
          (remaining.take maxChars).getD (i + 1) ' ' :=
        (getD_take remaining maxChars (i + 1) (by omega)).symm
      rw [hgd]
      exact hsp0
    refine ⟨by omega, by omega, ?_⟩
    exact cleanCut_of_drop_space remaining (i + 1) hi1 hsp
  | none =>
  rw [none_orElse_eq]
  cases hp4 : wsSplit (remaining.take maxChars) with
  | some i =>
    rw [Option.getD_some]
    obtain ⟨hpos, hlt, hsp0⟩ := wsSplit_some _ _ hp4
    rw [hclen] at hlt
    have hii : i < remaining.length := by omega
    have hsp : goIsSpace (remaining.getD i ' ') = true := by
      have hgd : remaining.getD i ' ' = (remaining.take maxChars).getD i ' ' :=
        (getD_take remaining maxChars i (by omega)).symm
      rw [hgd]
      exact hsp0
    refine ⟨by omega, by omega, ?_⟩
    exact cleanCut_of_drop_space remaining i hii hsp
  | none =>
    rw [Option.getD_none, hclen]
    have hwsnone := wsSplit_none _ hp4
    have hcand : ∀ i, i < maxChars → goIsSpace (remaining.getD i ' ') = false := by
      intro i hi
      rcases Nat.eq_zero_or_pos i with h0 | hposi
      · subst h0
        cases remaining with
        | nil => simp at hlong
        | cons x xs =>
          have := hhead x rfl
          simpa using this
      · have := hwsnone i hposi (by rw [hclen]; exact hi)
        rw [getD_take remaining maxChars i hi] at this
        exact this
    obtain ⟨c0, hc0⟩ : ∃ c, remaining.head? = some c := by
      cases remaining with
      | nil => simp at hlong
      | cons x xs => exact ⟨x, rfl⟩
    have hc0ns := hhead c0 hc0
    have htw := tokens_head_word remaining c0 hc0 hc0ns
    have hwmem : remaining.takeWhile (fun d => !goIsSpace d) ∈ tokens remaining := by
      rw [htw]
      exact List.mem_cons_self _ _
    have hwle := hbound _ hwmem
    have hwge : maxChars ≤ (remaining.takeWhile (fun d => !goIsSpace d)).length := by
      apply takeWhile_length_ge (fun d => !goIsSpace d) maxChars remaining (by omega)
      intro i hi
      show (!goIsSpace (remaining.getD i ' ')) = true
      rw [hcand i hi]
      rfl
    have hweq : (remaining.takeWhile (fun d => !goIsSpace d)).length = maxChars := by
      omega
    have hstop := takeWhile_stop (fun d => !goIsSpace d) remaining maxChars hweq hlong
    have hsp : goIsSpace (remaining.getD maxChars ' ') = true := by
      simpa using hstop
    exact ⟨by omega, le_rfl, cleanCut_of_drop_space remaining maxChars hlong hsp⟩

/-! ### The chunk loop preserves the token stream -/

theorem chunkAux_tokens (maxChars : Nat) (hm : 0 < maxChars) :
    ∀ (fuel : Nat) (remaining : List Char), remaining.length ≤ fuel →
      (∀ c, remaining.head? = some c → goIsSpace c = false) →
      (∀ t ∈ tokens remaining, t.length ≤ maxChars) →
      ((chunkAux maxChars fuel remaining).map tokens).flatten =
        tokens remaining := by
  intro fuel
  induction fuel with
  | zero =>
    intro remaining hfuel _ _
    have hnil : remaining = [] := List.length_eq_zero.mp (Nat.le_zero.mp hfuel)
    subst hnil
    rw [chunkAux, if_pos (show trimChars ([] : List Char) = [] from rfl)]
    rfl
  | succ fuel ih =>
    intro remaining hfuel hhead hbound
    rw [chunkAux]
    by_cases hfit : remaining.length ≤ maxChars
    · rw [if_pos hfit]
      by_cases htrim : trimChars remaining = []
      · rw [if_pos htrim]
        have hte : tokens remaining = [] := by
          rw [← tokens_trimChars remaining, htrim]
          rfl
        rw [hte]
        rfl
      · rw [if_neg htrim]
        simp [tokens_trimChars]
    · rw [if_neg hfit]
      have hlong : maxChars < remaining.length := by omega
      obtain ⟨hsp1, hsple, hclean⟩ :=
        findSplit_clean remaining maxChars hm hlong hhead hbound
      have hdec : remaining.take (findSplit remaining maxChars) ++
          remaining.drop (findSplit remaining maxChars) = remaining :=
        List.take_append_drop _ remaining
      have htok : tokens remaining =
          tokens (remaining.take (findSplit remaining maxChars)) ++
            tokens (remaining.drop (findSplit remaining maxChars)) := by
        conv_lhs => rw [← hdec]
        exact tokens_append_clean _ _ hclean
      have hlen2 : (trimChars (remaining.drop (findSplit remaining maxChars))).length
          ≤ fuel := by
        have h1 := trimChars_length_le (remaining.drop (findSplit remaining maxChars))
        rw [List.length_drop] at h1
        omega
      have hhead2 : ∀ c,
          (trimChars (remaining.drop (findSplit remaining maxChars))).head? = some c →
          goIsSpace c = false := fun c hc => trimChars_head _ c hc
      have hbound2 : ∀ t ∈ tokens (trimChars
          (remaining.drop (findSplit remaining maxChars))), t.length ≤ maxChars := by
        intro t htm
        rw [tokens_trimChars] at htm
        apply hbound
        rw [htok]
        exact List.mem_append_right _ htm
      have hrec := ih _ hlen2 hhead2 hbound2
      by_cases hp : trimChars (remaining.take (findSplit remaining maxChars)) = []
      · rw [if_pos hp, List.nil_append, hrec, tokens_trimChars, htok]
        have hte : tokens (remaining.take (findSplit remaining maxChars)) = [] := by
          rw [← tokens_trimChars, hp]
          rfl
        rw [hte, List.nil_append]
      · rw [if_neg hp, List.map_append, List.flatten_append, hrec,
          tokens_trimChars, htok]
        simp [tokens_trimChars]

/-! ### Joining with single spaces -/

theorem tokens_joinSpace : ∀ cs : List (List Char),
    tokens (joinSpace cs) = (cs.map tokens).flatten := by
  intro cs
  induction cs with
  | nil => rfl
  | cons x tl ih =>
    cases tl with
    | nil => simp [joinSpace]
    | cons y tl' =>
      rw [joinSpace]
      rw [tokens_append_clean x (' ' :: joinSpace (y :: tl'))
        (Or.inl ⟨' ', joinSpace (y :: tl'), rfl, by decide⟩)]
      rw [tokens_cons_space (by decide), ih]
      simp

/-- The chunker keeps the token stream intact for texts that start with
a non-space character and whose tokens all fit in `maxChars`. -/
theorem Chunk_tokens (text : List Char) (maxChars : Nat) (hm : 0 < maxChars)
    (hhead : ∀ c, text.head? = some c → goIsSpace c = false)
    (hbound : ∀ t ∈ tokens text, t.length ≤ maxChars) :
    tokens (joinSpace (Chunk text maxChars)) = tokens text := by
  rw [tokens_joinSpace, Chunk]
  by_cases hfit : maxChars = 0 ∨ text.length ≤ maxChars
  · rw [if_pos hfit]
    simp
  · rw [if_neg hfit]
    exact chunkAux_tokens maxChars hm text.length text le_rfl hhead hbound

/-- C5 counterexample: with `maxChars = 3 > 0` the text `"abcdef"` has
the single whitespace-delimited token `"abcdef"`, but the chunker
hard-cuts it into `"abc"` and `"def"`, and the single-space join
`"abc def"` does not contain that token. -/
theorem C5_chunk_counterexample :
    (0 : Nat) < 3 ∧
      "abcdef".data ∈ tokens "abcdef".data ∧
      Chunk "abcdef".data 3 = ["abc".data, "def".data] ∧
      containsSeq (joinSpace (Chunk "abcdef".data 3)) "abcdef".data = false := by
  refine ⟨by decide, by decide, by decide, by decide⟩

/-- C5 (amended): for `maxChars > 0`, a text that does not start with
whitespace and whose whitespace-delimited tokens each fit in `maxChars`
runes round-trips through the chunker: joining `Chunk text maxChars`
with single-space separators has exactly the token list of the original
text, and in particular contains every token of the original text at
least once. -/
theorem C5_chunk_roundtrip (text : List Char) (maxChars : Nat)
    (hm : 0 < maxChars)
    (hhead : ∀ c, text.head? = some c → goIsSpace c = false)
    (hbound : ∀ t ∈ tokens text, t.length ≤ maxChars) :
    tokens (joinSpace (Chunk text maxChars)) = tokens text ∧
      ∀ t ∈ tokens text,
        containsSeq (joinSpace (Chunk text maxChars)) t = true := by
  have hjoin := Chunk_tokens text maxChars hm hhead hbound
  refine ⟨hjoin, ?_⟩
  intro t ht
  apply tokens_containsSeq
  rw [hjoin]
  exact ht

/-- Witness for the amended C5 on `"one two"` with `maxChars = 3`. -/
theorem C5_chunk_roundtrip_witness :
    ((0 : Nat) < 3 ∧
      (∀ c, "one two".data.head? = some c → goIsSpace c = false) ∧
      (∀ t ∈ tokens "one two".data, t.length ≤ 3)) ∧
      tokens (joinSpace (Chunk "one two".data 3)) = tokens "one two".data := by
  refine ⟨⟨by decide, ?_, by decide⟩, ?_⟩
  · intro c h
    obtain rfl := Option.some.inj h
    decide
  · exact (C5_chunk_roundtrip "one two".data 3 (by decide)
      (by intro c h; obtain rfl := Option.some.inj h; decide)
      (by decide)).1

end Peretran
